import Mathlib

/-!
Verification of `split_csv_by_col.py`.

The script streams a delimited file, extracts one field per row
(`cols[self.column - 1]`, Python indexing), and writes each maximal
contiguous run of rows sharing that field value to its own output file
named `output_stub + protect_filename(field) + output_suffix`.

We model the program state (`St`) after CSV decoding: the input is the
list of parsed rows (each a `List String`), the filesystem is an
association list from filename to written rows, and every `click.echo`
is recorded as a structured `Msg`.  Exceptions raised by the Python code
(`StopIteration`, `IndexError`, `KeyError`) become `Except` errors
carrying the state at the moment of the raise.
-/

namespace SplitCsv

/-- A row of a delimited file: the ordered list of its string fields. -/
abbrev Row := List String

/-- Structured form of every message the script emits via `click.echo`. -/
inductive Msg where
  /-- `" ... wrote {n} records (field: {field})"` printed by `close_output_file`. -/
  | wroteRecords (n : Nat) (field : String)
  /-- `"Writing to {file} (field: {field})"` printed by `init_output_file`. -/
  | writingTo (file : String) (field : String)
  /-- `"Already seen field '{field}' ... (line: {line})"` printed on stderr in force mode. -/
  | warnAlreadySeen (field : String) (line : Nat)
  /-- `"Wrote {records} records to {files} files"`. -/
  | summary (records : Nat) (files : Nat)
  /-- `"Done"`. -/
  | finished
deriving DecidableEq, Repr

/-- Exceptions `CsvSplitter.run` can raise. -/
inductive RunError where
  /-- `next(in_reader)` on an empty input when `use_headers` is set. -/
  | stopIteration
  /-- `cols[self.column - 1]` out of range at data row `line` (1-based). -/
  | indexError (line : Nat)
  /-- the out-of-order `KeyError` raised for `field` at data row `line` (1-based). -/
  | keyError (field : String) (line : Nat)
deriving DecidableEq, Repr

/-- The constructor arguments of `CsvSplitter` that matter after CSV decoding. -/
structure Config where
  column : Int
  output_stub : String
  output_suffix : String
  use_headers : Bool
  force : Bool
deriving DecidableEq, Repr

/-- The mutable state of a `CsvSplitter` instance, plus the filesystem and
the emitted messages.  `out_file`/`out_open` model `self._out_fh`: the name
of the file the handle points at and whether the handle is still open. -/
structure St where
  headers : Option Row
  last_field : Option String
  records_by_field : List (String × Nat)
  out_file : Option String
  out_open : Bool
  fs : List (String × List Row)
  log : List Msg
deriving DecidableEq, Repr

/-- Python list indexing `l[i]`: non-negative indices count from the front,
negative indices from the back; `none` is an `IndexError`. -/
def pyIndex (l : List α) (i : Int) : Option α :=
  if 0 ≤ i then l.get? i.toNat
  else if 0 ≤ (l.length : Int) + i then l.get? ((l.length : Int) + i).toNat
  else none

/-- Truthiness of `self._last_field` (a `str` or `None`): `None` and `""` are falsy. -/
def pyTruthyStr : Option String → Bool
  | none => false
  | some s => !(s == "")

/-- Truthiness of `self._headers` (a list or `None`): `None` and `[]` are falsy. -/
def pyTruthyRow : Option Row → Bool
  | none => false
  | some r => !r.isEmpty

/-- The characters kept by `re.sub(r"[^0-9a-zA-Z_.\-]", "", ...)`. -/
def isSafeFilenameChar (ch : Char) : Bool :=
  ('0' ≤ ch && ch ≤ '9') || ('a' ≤ ch && ch ≤ 'z') || ('A' ≤ ch && ch ≤ 'Z')
    || ch == '_' || ch == '.' || ch == '-'

/-- Character-by-character scan of `re.sub` with an empty replacement:
every unsafe character is deleted, every safe one kept. -/
def protect_aux : List Char → List Char
  | [] => []
  | ch :: t => if isSafeFilenameChar ch then ch :: protect_aux t else protect_aux t

/-- `protect_filename(column_text)` from the script. -/
def protect_filename (s : String) : String := ⟨protect_aux s.data⟩

/-- `get_output_filename(output_stub, unique_field, suffix)` from the script. -/
def get_output_filename (output_stub unique_field suffix : String) : String :=
  output_stub ++ unique_field ++ suffix

/-- The destination filename the splitter constructs for a group key. -/
def fname (c : Config) (k : String) : String :=
  get_output_filename c.output_stub (protect_filename k) c.output_suffix

/-- Read a file's rows; a file that was never opened reads as empty. -/
def fsGet (fs : List (String × List Row)) (f : String) : List Row :=
  match fs.find? (fun p => p.1 == f) with
  | some p => p.2
  | none => []

/-- Replace the contents of file `f` (creating it if absent). -/
def fsSet : List (String × List Row) → String → List Row → List (String × List Row)
  | [], f, v => [(f, v)]
  | p :: t, f, v => if p.1 == f then (f, v) :: t else p :: fsSet t f v

/-- `open(out_file, "w")`: create or truncate. -/
def fsOpenTrunc (fs : List (String × List Row)) (f : String) : List (String × List Row) :=
  fsSet fs f []

/-- `writer.writerow(r)` on the file `f`. -/
def fsAppend (fs : List (String × List Row)) (f : String) (r : Row) : List (String × List Row) :=
  fsSet fs f (fsGet fs f ++ [r])

/-- `self._records_by_field[k]`, defaulting to 0 (the script only reads
keys that are present). -/
def lookupCount (d : List (String × Nat)) (k : String) : Nat :=
  match d.find? (fun p => p.1 == k) with
  | some p => p.2
  | none => 0

/-- `k in self._records_by_field`. -/
def hasKey (d : List (String × Nat)) (k : String) : Bool :=
  (d.find? (fun p => p.1 == k)).isSome

/-- `self._records_by_field[k] += 1`. -/
def dict_incr (d : List (String × Nat)) (k : String) : List (String × Nat) :=
  d.map (fun p => if p.1 == k then (p.1, p.2 + 1) else p)

/-- `sum(self._records_by_field.values())`. -/
def sumCounts (d : List (String × Nat)) : Nat :=
  (d.map Prod.snd).sum

/-- `CsvSplitter.close_output_file`: report the last field's count when the
last field is truthy, then close the handle if there is one. -/
def close_output_file (st : St) : St :=
  let st1 :=
    if pyTruthyStr st.last_field then
      { st with log := st.log ++
          [.wroteRecords (lookupCount st.records_by_field (st.last_field.getD ""))
            (st.last_field.getD "")] }
    else st
  if st1.out_file.isSome then { st1 with out_open := false } else st1

/-- `CsvSplitter.init_output_file`: announce and open (truncating) the
destination for `current_field`; on the first creation of this key also
start its count at 0 and write the header row when enabled and truthy. -/
def init_output_file (c : Config) (st : St) (current_field : String) : St :=
  let out_file := fname c current_field
  let st1 : St :=
    { st with
      log := st.log ++ [.writingTo out_file current_field]
      out_file := some out_file
      out_open := true
      fs := fsOpenTrunc st.fs out_file }
  if hasKey st1.records_by_field current_field then st1
  else
    let st2 := { st1 with records_by_field := st1.records_by_field ++ [(current_field, 0)] }
    if c.use_headers && pyTruthyRow st2.headers then
      { st2 with fs := fsAppend st2.fs out_file (st2.headers.getD []) }
    else st2

/-- `self._out_writer.writerow(cols)`. -/
def writeRow (st : St) (cols : Row) : St :=
  match st.out_file with
  | some f => { st with fs := fsAppend st.fs f cols }
  | none => st

/-- The tail of each loop iteration: increment the count, write the row,
remember the field. -/
def finishRow (st : St) (current_field : String) (cols : Row) : St :=
  let st1 := { st with records_by_field := dict_incr st.records_by_field current_field }
  let st2 := writeRow st1 cols
  { st2 with last_field := some current_field }

/-- `cols[self.column - 1]`. -/
def keyOf (c : Config) (cols : Row) : Option String := pyIndex cols (c.column - 1)

/-- One iteration of the `for line_count, cols in enumerate(in_reader, 1)` loop. -/
def step (c : Config) (line_count : Nat) (st : St) (cols : Row) :
    Except (RunError × St) St :=
  match keyOf c cols with
  | none => .error (.indexError line_count, st)
  | some current_field =>
    if some current_field = st.last_field then
      .ok (finishRow st current_field cols)
    else if hasKey st.records_by_field current_field then
      if c.force then
        let st1 := { st with log := st.log ++ [.warnAlreadySeen current_field line_count] }
        .ok (finishRow (init_output_file c (close_output_file st1) current_field)
              current_field cols)
      else
        .error (.keyError current_field line_count, st)
    else
      .ok (finishRow (init_output_file c (close_output_file st) current_field)
            current_field cols)

/-- The full row loop, with `line_count` starting at the given value. -/
def runLoop (c : Config) : Nat → St → List Row → Except (RunError × St) St
  | _, st, [] => .ok st
  | n, st, cols :: rest =>
    match step c n st cols with
    | .ok st' => runLoop c (n + 1) st' rest
    | .error e => .error e

/-- `CsvSplitter.run` after the optional header has been consumed: loop
over the data rows, close the last file, emit the summary. -/
def runFrom (c : Config) (st : St) (dataRows : List Row) : Except (RunError × St) St :=
  match runLoop c 1 st dataRows with
  | .error e => .error e
  | .ok st1 =>
    let st2 := close_output_file st1
    .ok { st2 with log := st2.log ++
            [.summary (sumCounts st2.records_by_field) st2.records_by_field.length,
             .finished] }

/-- The state of a freshly constructed `CsvSplitter` (with the header
already recorded when one was consumed). -/
def initSt (hdr : Option Row) : St :=
  { headers := hdr, last_field := none, records_by_field := [], out_file := none,
    out_open := false, fs := [], log := [] }

/-- `CsvSplitter.run` on the parsed input lines: with `use_headers` the
first line is consumed as the header (`next` on an empty reader raises
`StopIteration`). -/
def runSplitter (c : Config) (input : List Row) : Except (RunError × St) St :=
  if c.use_headers then
    match input with
    | [] => .error (.stopIteration, initSt none)
    | h :: t => runFrom c (initSt (some h)) t
  else
    runFrom c (initSt none) input

/-! ### Specification-side definitions -/

/-- Extract the group key of every row; `none` when some row is too short. -/
def extractKeys (c : Config) : List Row → Option (List String)
  | [] => some []
  | r :: rs =>
    match keyOf c r, extractKeys c rs with
    | some k, some ks => some (k :: ks)
    | _, _ => none

/-- Collapse adjacent duplicates: the sequence of contiguous runs' keys. -/
def dedupAdj : List String → List String
  | [] => []
  | [k] => [k]
  | k :: k' :: t => if k = k' then dedupAdj (k' :: t) else k :: dedupAdj (k' :: t)

/-- A key sequence is pre-sorted when every key occupies a single
contiguous run, i.e. the run keys are pairwise distinct. -/
def presorted (ks : List String) : Prop := (dedupAdj ks).Nodup

instance (ks : List String) : Decidable (presorted ks) :=
  inferInstanceAs (Decidable (dedupAdj ks).Nodup)

/-- The rows whose key is `k`, in input order (`ks` and `rs` aligned). -/
def keyRows (k : String) : List String → List Row → List Row
  | k' :: ks, r :: rs => (if k' = k then [r] else []) ++ keyRows k ks rs
  | _, _ => []

/-- The header rows `init_output_file` writes into a freshly created file. -/
def hdrRows (c : Config) (hdr : Option Row) : List Row :=
  if c.use_headers && pyTruthyRow hdr then [hdr.getD []] else []

/-- Concatenate the data rows of the output files in first-seen-group
order, dropping the written per-file header. -/
def reconcat (c : Config) (st : St) : List Row :=
  ((st.records_by_field.map Prod.fst).map
    (fun k => (fsGet st.fs (fname c k)).drop (hdrRows c st.headers).length)).flatten

/-- Distinct keys get distinct destination filenames. -/
def injFnames (c : Config) (ks : List String) : Prop :=
  ∀ k1 ∈ ks, ∀ k2 ∈ ks, fname c k1 = fname c k2 → k1 = k2

instance (c : Config) (ks : List String) : Decidable (injFnames c ks) := by
  unfold injFnames
  infer_instance

/-- On reversed key/row lists: collect the current run of `k` from the front. -/
def takeRunRev (k : String) : List String → List Row → List Row
  | k' :: ks, r :: rs => if k' = k then r :: takeRunRev k ks rs else []
  | _, _ => []

/-- On reversed key/row lists: the last run of `k`, reversed. -/
def lastRunRev (k : String) : List String → List Row → List Row
  | k' :: ks, r :: rs => if k' = k then r :: takeRunRev k ks rs else lastRunRev k ks rs
  | _, _ => []

/-- The rows of the final contiguous run of key `k`. -/
def lastRun (k : String) (ks : List String) (rs : List Row) : List Row :=
  (lastRunRev k ks.reverse rs.reverse).reverse

/-- On a reversed key list: skip the leading run of `k`, return the rest. -/
def dropRunRev (k : String) : List String → List String
  | [] => []
  | k' :: ks => if k' = k then dropRunRev k ks else k' :: ks

/-- On a reversed key list: everything strictly before the last run of `k`. -/
def afterLastRunRev (k : String) : List String → List String
  | [] => []
  | k' :: ks => if k' = k then dropRunRev k ks else afterLastRunRev k ks

/-- `k` occurs in at least two separate contiguous runs. -/
def multiRun (k : String) (ks : List String) : Bool :=
  decide (k ∈ afterLastRunRev k ks.reverse)

/-- The raised exception of a run, if any. -/
def errOf : Except (RunError × St) St → Option RunError
  | .error (e, _) => some e
  | .ok _ => none

/-- The state at the moment an exception was raised, if any. -/
def errState : Except (RunError × St) St → Option St
  | .error (_, st) => some st
  | .ok _ => none

/-- The final state of a successful run, if any. -/
def resultState : Except (RunError × St) St → Option St
  | .ok st => some st
  | .error _ => none

/-- Is this message the force-mode warning for key `k`? -/
def isWarnFor (k : String) : Msg → Bool
  | .warnAlreadySeen k' _ => k' == k
  | _ => false

/-! ### Filesystem and dictionary lemmas -/

theorem fsGet_nil (f : String) : fsGet [] f = [] := rfl

theorem fsGet_cons (p : String × List Row) (t : List (String × List Row)) (f : String) :
    fsGet (p :: t) f = if p.1 = f then p.2 else fsGet t f := by
  by_cases h : p.1 = f
  · have hb : (p.1 == f) = true := by simp [h]
    simp [fsGet, List.find?_cons, hb, h]
  · have hb : (p.1 == f) = false := by simp [h]
    simp [fsGet, List.find?_cons, hb, h]

theorem fsSet_cons (p : String × List Row) (t : List (String × List Row)) (f : String)
    (v : List Row) :
    fsSet (p :: t) f v = if p.1 = f then (f, v) :: t else p :: fsSet t f v := by
  by_cases h : p.1 = f
  · have hb : (p.1 == f) = true := by simp [h]
    simp [fsSet, hb, h]
  · have hb : (p.1 == f) = false := by simp [h]
    simp [fsSet, hb, h]

theorem fsGet_fsSet_self (fs : List (String × List Row)) (f : String) (v : List Row) :
    fsGet (fsSet fs f v) f = v := by
  induction fs with
  | nil => simp [fsSet, fsGet_cons]
  | cons p t ih =>
    rw [fsSet_cons]
    by_cases h : p.1 = f
    · simp [h, fsGet_cons]
    · simp [h, fsGet_cons, ih]

theorem fsGet_fsSet_ne (fs : List (String × List Row)) (f f' : String) (v : List Row)
    (h : f' ≠ f) : fsGet (fsSet fs f v) f' = fsGet fs f' := by
  induction fs with
  | nil => simp [fsSet, fsGet_cons, fsGet_nil, Ne.symm h]
  | cons p t ih =>
    rw [fsSet_cons]
    by_cases hp : p.1 = f
    · rw [if_pos hp, fsGet_cons, fsGet_cons, hp, if_neg (Ne.symm h), if_neg (Ne.symm h)]
    · rw [if_neg hp, fsGet_cons, fsGet_cons, ih]

theorem fsGet_fsAppend_self (fs : List (String × List Row)) (f : String) (r : Row) :
    fsGet (fsAppend fs f r) f = fsGet fs f ++ [r] := by
  simp [fsAppend, fsGet_fsSet_self]

theorem fsGet_fsAppend_ne (fs : List (String × List Row)) (f f' : String) (r : Row)
    (h : f' ≠ f) : fsGet (fsAppend fs f r) f' = fsGet fs f' := by
  simp [fsAppend, fsGet_fsSet_ne _ _ _ _ h]

theorem hasKey_nil (k : String) : hasKey [] k = false := rfl

theorem hasKey_cons (p : String × Nat) (t : List (String × Nat)) (k : String) :
    hasKey (p :: t) k = if p.1 = k then true else hasKey t k := by
  by_cases h : p.1 = k
  · have hb : (p.1 == k) = true := by simp [h]
    simp [hasKey, List.find?_cons, hb, h]
  · have hb : (p.1 == k) = false := by simp [h]
    simp [hasKey, List.find?_cons, hb, h]

theorem lookupCount_nil (k : String) : lookupCount [] k = 0 := rfl

theorem lookupCount_cons (p : String × Nat) (t : List (String × Nat)) (k : String) :
    lookupCount (p :: t) k = if p.1 = k then p.2 else lookupCount t k := by
  by_cases h : p.1 = k
  · have hb : (p.1 == k) = true := by simp [h]
    simp [lookupCount, List.find?_cons, hb, h]
  · have hb : (p.1 == k) = false := by simp [h]
    simp [lookupCount, List.find?_cons, hb, h]

theorem dict_incr_nil (k : String) : dict_incr [] k = [] := rfl

theorem dict_incr_cons (p : String × Nat) (t : List (String × Nat)) (k : String) :
    dict_incr (p :: t) k =
      (if p.1 = k then (p.1, p.2 + 1) else p) :: dict_incr t k := by
  by_cases h : p.1 = k
  · have hb : (p.1 == k) = true := by simp [h]
    simp [dict_incr, hb, h]
  · have hb : (p.1 == k) = false := by simp [h]
    simp [dict_incr, hb, h]

theorem hasKey_iff_mem (d : List (String × Nat)) (k : String) :
    hasKey d k = true ↔ k ∈ d.map Prod.fst := by
  induction d with
  | nil => simp [hasKey_nil]
  | cons p t ih =>
    rw [hasKey_cons]
    by_cases h : p.1 = k
    · simp [h]
    · simp [h, Ne.symm h, ih]

theorem hasKey_append_single (d : List (String × Nat)) (k k' : String) (n : Nat) :
    hasKey (d ++ [(k, n)]) k' = (hasKey d k' || decide (k' = k)) := by
  induction d with
  | nil => by_cases h : k = k' <;> simp [hasKey_cons, hasKey_nil, h, eq_comm]
  | cons p t ih =>
    rw [List.cons_append, hasKey_cons, hasKey_cons]
    by_cases h : p.1 = k' <;> simp [h, ih]

theorem lookupCount_append_right (d : List (String × Nat)) (k : String) (n : Nat)
    (h : hasKey d k = false) : lookupCount (d ++ [(k, n)]) k = n := by
  induction d with
  | nil => simp [lookupCount_cons]
  | cons p t ih =>
    rw [hasKey_cons] at h
    by_cases hp : p.1 = k
    · simp [hp] at h
    · rw [if_neg hp] at h
      rw [List.cons_append, lookupCount_cons, if_neg hp]
      exact ih h

theorem lookupCount_append_miss (d : List (String × Nat)) (k k' : String) (n : Nat)
    (h : k' ≠ k) : lookupCount (d ++ [(k, n)]) k' = lookupCount d k' := by
  induction d with
  | nil => simp [lookupCount_cons, lookupCount_nil, Ne.symm h]
  | cons p t ih =>
    rw [List.cons_append, lookupCount_cons, lookupCount_cons]
    by_cases hp : p.1 = k' <;> simp [hp, ih]

theorem lookupCount_dict_incr_self (d : List (String × Nat)) (k : String)
    (h : hasKey d k = true) :
    lookupCount (dict_incr d k) k = lookupCount d k + 1 := by
  induction d with
  | nil => simp [hasKey_nil] at h
  | cons p t ih =>
    rw [hasKey_cons] at h
    rw [dict_incr_cons]
    by_cases hp : p.1 = k
    · rw [if_pos hp, lookupCount_cons, lookupCount_cons]
      simp [hp]
    · rw [if_neg hp] at h
      rw [if_neg hp, lookupCount_cons, lookupCount_cons, if_neg hp, if_neg hp]
      exact ih h

theorem lookupCount_dict_incr_ne (d : List (String × Nat)) (k k' : String)
    (h : k' ≠ k) : lookupCount (dict_incr d k) k' = lookupCount d k' := by
  induction d with
  | nil => simp [dict_incr_nil]
  | cons p t ih =>
    rw [dict_incr_cons, lookupCount_cons, lookupCount_cons]
    by_cases hp : p.1 = k
    · rw [if_pos hp]
      have h1 : ¬((p.1, p.2 + 1) : String × Nat).1 = k' := by
        simpa [hp] using Ne.symm h
      have h2 : ¬p.1 = k' := by simpa [hp] using Ne.symm h
      rw [if_neg h1, if_neg h2]
      exact ih
    · rw [if_neg hp]
      by_cases hp' : p.1 = k'
      · simp [hp']
      · rw [if_neg hp', if_neg hp']
        exact ih

theorem keys_dict_incr (d : List (String × Nat)) (k : String) :
    (dict_incr d k).map Prod.fst = d.map Prod.fst := by
  induction d with
  | nil => rfl
  | cons p t ih =>
    rw [dict_incr_cons]
    by_cases hp : p.1 = k <;> simp [hp, ih]

theorem hasKey_dict_incr (d : List (String × Nat)) (k k' : String) :
    hasKey (dict_incr d k) k' = hasKey d k' := by
  rw [Bool.eq_iff_iff, hasKey_iff_mem, hasKey_iff_mem, keys_dict_incr]

theorem sumCounts_nil : sumCounts ([] : List (String × Nat)) = 0 := rfl

theorem sumCounts_cons (p : String × Nat) (t : List (String × Nat)) :
    sumCounts (p :: t) = p.2 + sumCounts t := by
  simp [sumCounts]

theorem sumCounts_append_single (d : List (String × Nat)) (k : String) (n : Nat) :
    sumCounts (d ++ [(k, n)]) = sumCounts d + n := by
  simp [sumCounts]

theorem dict_incr_of_not_hasKey (d : List (String × Nat)) (k : String)
    (h : hasKey d k = false) : dict_incr d k = d := by
  induction d with
  | nil => rfl
  | cons p t ih =>
    rw [hasKey_cons] at h
    by_cases hp : p.1 = k
    · simp [hp] at h
    · rw [if_neg hp] at h
      rw [dict_incr_cons, if_neg hp, ih h]

theorem sumCounts_dict_incr (d : List (String × Nat)) (k : String)
    (hk : hasKey d k = true) (hnd : (d.map Prod.fst).Nodup) :
    sumCounts (dict_incr d k) = sumCounts d + 1 := by
  induction d with
  | nil => simp [hasKey_nil] at hk
  | cons p t ih =>
    simp only [List.map_cons, List.nodup_cons] at hnd
    rw [hasKey_cons] at hk
    rw [dict_incr_cons]
    by_cases hp : p.1 = k
    · have ht : hasKey t k = false := by
        rw [← Bool.not_eq_true, hasKey_iff_mem]
        rw [hp] at hnd
        exact hnd.1
      rw [if_pos hp, dict_incr_of_not_hasKey t k ht, sumCounts_cons, sumCounts_cons]
      omega
    · rw [if_neg hp] at hk
      rw [if_neg hp, sumCounts_cons, sumCounts_cons, ih hk hnd.2]
      omega

/-! ### Loop composition and key-extraction lemmas -/

theorem runLoop_append_ok (c : Config) (xs : List Row) :
    ∀ (n : Nat) (st st' : St) (ys : List Row), runLoop c n st xs = .ok st' →
      runLoop c n st (xs ++ ys) = runLoop c (n + xs.length) st' ys := by
  induction xs with
  | nil =>
    intro n st st' ys h
    simp only [runLoop] at h
    cases h
    simp [runLoop]
  | cons r t ih =>
    intro n st st' ys h
    simp only [runLoop] at h
    have harith : n + (r :: t).length = n + 1 + t.length := by
      simp [List.length_cons]
      omega
    rw [harith]
    show runLoop c n st (r :: (t ++ ys)) = _
    simp only [runLoop]
    cases hs : step c n st r with
    | ok st1 =>
      rw [hs] at h
      exact ih (n + 1) st1 st' ys h
    | error e => rw [hs] at h; cases h

theorem runLoop_append_error (c : Config) (xs : List Row) :
    ∀ (n : Nat) (st : St) (e : RunError × St) (ys : List Row),
      runLoop c n st xs = .error e →
      runLoop c n st (xs ++ ys) = .error e := by
  induction xs with
  | nil =>
    intro n st e ys h
    simp only [runLoop] at h
    cases h
  | cons r t ih =>
    intro n st e ys h
    simp only [runLoop] at h
    show runLoop c n st (r :: (t ++ ys)) = _
    simp only [runLoop]
    cases hs : step c n st r with
    | ok st1 =>
      rw [hs] at h
      exact ih (n + 1) st1 e ys h
    | error e' =>
      rw [hs] at h
      exact h

theorem extractKeys_length (c : Config) :
    ∀ (rs : List Row) (ks : List String), extractKeys c rs = some ks →
      ks.length = rs.length := by
  intro rs
  induction rs with
  | nil => intro ks h; simp only [extractKeys] at h; cases h; rfl
  | cons r t ih =>
    intro ks h
    simp only [extractKeys] at h
    cases hk : keyOf c r with
    | none => rw [hk] at h; cases h
    | some k =>
      rw [hk] at h
      cases ht : extractKeys c t with
      | none => rw [ht] at h; cases h
      | some ks' =>
        rw [ht] at h
        cases h
        simp [ih ks' ht]

theorem extractKeys_append (c : Config) :
    ∀ (xs ys : List Row) (a b : List String),
      extractKeys c xs = some a → extractKeys c ys = some b →
      extractKeys c (xs ++ ys) = some (a ++ b) := by
  intro xs
  induction xs with
  | nil =>
    intro ys a b ha hb
    simp only [extractKeys] at ha
    cases ha
    simpa using hb
  | cons r t ih =>
    intro ys a b ha hb
    simp only [extractKeys] at ha
    cases hk : keyOf c r with
    | none => rw [hk] at ha; cases ha
    | some k =>
      rw [hk] at ha
      cases ht : extractKeys c t with
      | none => rw [ht] at ha; cases ha
      | some ks' =>
        rw [ht] at ha
        cases ha
        have := ih ys ks' b ht hb
        simp [extractKeys, hk, this]

/-! ### Contiguous-run (dedupAdj / presorted / keyRows) lemmas -/

theorem dedupAdj_cons_head : ∀ (t : List String) (k : String),
    ∃ t', dedupAdj (k :: t) = k :: t' := by
  intro t
  induction t with
  | nil => intro k; exact ⟨[], rfl⟩
  | cons b t2 ih =>
    intro k
    by_cases h : k = b
    · obtain ⟨t', ht'⟩ := ih b
      exact ⟨t', by rw [dedupAdj, if_pos h, h, ht']⟩
    · exact ⟨dedupAdj (b :: t2), by rw [dedupAdj, if_neg h]⟩

theorem dedupAdj_cons_self (t : List String) (k : String) (h : t.head? = some k) :
    dedupAdj (k :: t) = dedupAdj t := by
  cases t with
  | nil => cases h
  | cons b t2 =>
    simp only [List.head?_cons, Option.some_inj] at h
    rw [dedupAdj, if_pos h.symm]

theorem dedupAdj_cons_ne (t : List String) (k : String) (h : t.head? ≠ some k) :
    dedupAdj (k :: t) = k :: dedupAdj t := by
  cases t with
  | nil => rfl
  | cons b t2 =>
    have hk : ¬k = b := by
      intro hc
      exact h (by simp [hc])
    rw [dedupAdj, if_neg hk]

theorem mem_dedupAdj : ∀ (l : List String) (a : String), a ∈ dedupAdj l ↔ a ∈ l := by
  intro l
  induction l with
  | nil => intro a; simp [dedupAdj]
  | cons k t ih =>
    intro a
    cases t with
    | nil => simp [dedupAdj]
    | cons b t2 =>
      by_cases h : k = b
      · rw [show dedupAdj (k :: b :: t2) = dedupAdj (b :: t2) from by
          rw [dedupAdj, if_pos h]]
        rw [ih]
        subst h
        simp only [List.mem_cons]
        tauto
      · rw [show dedupAdj (k :: b :: t2) = k :: dedupAdj (b :: t2) from by
          rw [dedupAdj, if_neg h]]
        simp [List.mem_cons, ih]

theorem dedupAdj_snoc_last : ∀ (l : List String) (k : String),
    l.getLast? = some k → dedupAdj (l ++ [k]) = dedupAdj l := by
  intro l
  induction l with
  | nil => intro k h; cases h
  | cons a t ih =>
    intro k h
    cases t with
    | nil =>
      simp only [List.getLast?_singleton, Option.some_inj] at h
      rw [h]
      show dedupAdj (k :: k :: []) = dedupAdj [k]
      simp [dedupAdj]
    | cons b t2 =>
      rw [List.getLast?_cons_cons] at h
      have hbt := ih k h
      rw [List.cons_append] at hbt
      show dedupAdj (a :: b :: (t2 ++ [k])) = dedupAdj (a :: b :: t2)
      by_cases hab : a = b
      · rw [dedupAdj, if_pos hab, dedupAdj, if_pos hab]
        exact hbt
      · rw [dedupAdj, if_neg hab, dedupAdj, if_neg hab, hbt]

theorem dedupAdj_snoc_ne : ∀ (l : List String) (k : String),
    l.getLast? ≠ some k → dedupAdj (l ++ [k]) = dedupAdj l ++ [k] := by
  intro l
  induction l with
  | nil => intro k _; rfl
  | cons a t ih =>
    intro k h
    cases t with
    | nil =>
      have hak : ¬a = k := by
        intro hc
        exact h (by simp [hc])
      show dedupAdj (a :: [k]) = [a, k]
      rw [dedupAdj, if_neg hak]
      rfl
    | cons b t2 =>
      rw [List.getLast?_cons_cons] at h
      have hbt := ih k h
      rw [List.cons_append] at hbt
      show dedupAdj (a :: b :: (t2 ++ [k])) = dedupAdj (a :: b :: t2) ++ [k]
      by_cases hab : a = b
      · rw [dedupAdj, if_pos hab, dedupAdj, if_pos hab]
        exact hbt
      · rw [dedupAdj, if_neg hab, dedupAdj, if_neg hab, List.cons_append, hbt]

theorem dedupAdj_sublist_append : ∀ (l1 l2 : List String),
    (dedupAdj l1).Sublist (dedupAdj (l1 ++ l2)) := by
  intro l1
  induction l1 with
  | nil => intro l2; simp [dedupAdj]
  | cons a t ih =>
    intro l2
    cases t with
    | nil =>
      obtain ⟨t', ht'⟩ := dedupAdj_cons_head l2 a
      show (dedupAdj [a]).Sublist (dedupAdj (a :: l2))
      rw [ht']
      exact (List.nil_sublist t').cons₂ a
    | cons b t2 =>
      have hbt := ih l2
      show (dedupAdj (a :: b :: t2)).Sublist (dedupAdj (a :: b :: (t2 ++ l2)))
      by_cases hab : a = b
      · rw [dedupAdj, if_pos hab, dedupAdj, if_pos hab]
        exact hbt
      · rw [dedupAdj, if_neg hab, dedupAdj, if_neg hab]
        exact hbt.cons₂ a

theorem presorted_of_append_left (l1 l2 : List String) (h : presorted (l1 ++ l2)) :
    presorted l1 :=
  (dedupAdj_sublist_append l1 l2).nodup h

theorem presorted_cons_tail (k : String) (t : List String) (h : presorted (k :: t)) :
    presorted t := by
  cases ht : t.head? with
  | none =>
    cases t with
    | nil => simp [presorted, dedupAdj]
    | cons b t2 => cases ht
  | some b =>
    by_cases hbk : b = k
    · rw [hbk] at ht
      rwa [presorted, dedupAdj_cons_self t k ht] at h
    · rw [presorted, dedupAdj_cons_ne t k (by rw [ht]; simp [hbk])] at h
      exact h.of_cons

theorem not_mem_of_presorted_cons (k : String) (t : List String)
    (hps : presorted (k :: t)) (hh : t.head? ≠ some k) : k ∉ t := by
  rw [presorted, dedupAdj_cons_ne t k hh, List.nodup_cons] at hps
  intro hc
  exact hps.1 ((mem_dedupAdj t k).2 hc)

theorem not_mem_of_presorted_snoc (l : List String) (k : String)
    (hps : presorted (l ++ [k])) (hlast : l.getLast? ≠ some k) : k ∉ l := by
  rw [presorted, dedupAdj_snoc_ne l k hlast] at hps
  intro hc
  rw [List.nodup_append] at hps
  exact hps.2.2 ((mem_dedupAdj l k).2 hc) (List.mem_singleton_self k)

theorem keyRows_not_mem (k : String) : ∀ (ks : List String) (rs : List Row),
    k ∉ ks → keyRows k ks rs = [] := by
  intro ks
  induction ks with
  | nil => intro rs _; cases rs <;> rfl
  | cons a t ih =>
    intro rs h
    cases rs with
    | nil => rfl
    | cons r t2 =>
      have hak : ¬a = k := fun hc => h (by simp [hc])
      simp only [keyRows, hak, if_false, List.nil_append]
      exact ih t2 (fun hc => h (List.mem_cons_of_mem a hc))

theorem keyRows_snoc (k k' : String) (r : Row) : ∀ (ks : List String) (rs : List Row),
    ks.length = rs.length →
    keyRows k (ks ++ [k']) (rs ++ [r]) = keyRows k ks rs ++ (if k' = k then [r] else []) := by
  intro ks
  induction ks with
  | nil =>
    intro rs hlen
    cases rs with
    | nil => simp [keyRows]
    | cons r2 t2 => cases hlen
  | cons a t ih =>
    intro rs hlen
    cases rs with
    | nil => cases hlen
    | cons r2 t2 =>
      simp only [List.length_cons, Nat.succ_inj] at hlen
      show keyRows k (a :: (t ++ [k'])) (r2 :: (t2 ++ [r])) = _
      rw [keyRows, ih t2 hlen, keyRows]
      simp [List.append_assoc]

theorem flatten_keyRows_presorted : ∀ (ks : List String) (rs : List Row),
    presorted ks → ks.length = rs.length →
    ((dedupAdj ks).map (fun k => keyRows k ks rs)).flatten = rs := by
  intro ks
  induction ks with
  | nil =>
    intro rs _ hlen
    cases rs with
    | nil => rfl
    | cons r t2 => cases hlen
  | cons k t ih =>
    intro rs hps hlen
    cases rs with
    | nil => cases hlen
    | cons r t2 =>
      simp only [List.length_cons, Nat.succ_inj] at hlen
      have hpst : presorted t := presorted_cons_tail k t hps
      by_cases hh : t.head? = some k
      · cases t with
        | nil => cases hh
        | cons b t3 =>
          simp only [List.head?_cons, Option.some_inj] at hh
          subst hh
          rw [dedupAdj_cons_self (b :: t3) b (by simp)]
          obtain ⟨dd, hdd⟩ := dedupAdj_cons_head t3 b
          have hnd : (dedupAdj (b :: t3)).Nodup := hpst
          rw [hdd] at hnd
          have hknotdd : b ∉ dd := (List.nodup_cons.1 hnd).1
          rw [hdd, List.map_cons, List.flatten_cons]
          have hfk : keyRows b (b :: b :: t3) (r :: t2) = r :: keyRows b (b :: t3) t2 := by
            rw [keyRows, if_pos rfl]
            rfl
          rw [hfk]
          have hmap : (dd.map (fun x => keyRows x (b :: b :: t3) (r :: t2))) =
              dd.map (fun x => keyRows x (b :: t3) t2) := by
            apply List.map_congr_left
            intro x hx
            have hxk : ¬b = x := fun hc => hknotdd (hc ▸ hx)
            rw [keyRows, if_neg hxk]
            rfl
          rw [hmap]
          have hih := ih t2 hpst hlen
          rw [hdd, List.map_cons, List.flatten_cons] at hih
          rw [List.cons_append, hih]
      · have hknott : k ∉ t := not_mem_of_presorted_cons k t hps hh
        rw [dedupAdj_cons_ne t k hh, List.map_cons, List.flatten_cons]
        have hfk : keyRows k (k :: t) (r :: t2) = r :: keyRows k t t2 := by
          rw [keyRows, if_pos rfl]
          rfl
        rw [hfk, keyRows_not_mem k t t2 hknott]
        have hmap : ((dedupAdj t).map (fun x => keyRows x (k :: t) (r :: t2))) =
            (dedupAdj t).map (fun x => keyRows x t t2) := by
          apply List.map_congr_left
          intro x hx
          have hxk : ¬k = x := by
            intro hc
            subst hc
            exact hknott ((mem_dedupAdj t k).1 hx)
          rw [keyRows, if_neg hxk]
          rfl
        rw [hmap, ih t2 hpst hlen]
        rfl

/-! ### Characterizations of the splitter's state transformers -/

theorem close_preserve (st : St) :
    (close_output_file st).records_by_field = st.records_by_field ∧
    (close_output_file st).fs = st.fs ∧
    (close_output_file st).headers = st.headers ∧
    (close_output_file st).last_field = st.last_field ∧
    (close_output_file st).out_file = st.out_file := by
  by_cases h1 : pyTruthyStr st.last_field = true <;>
    by_cases h2 : st.out_file.isSome = true <;>
      simp [close_output_file, h1, h2]

theorem close_out_open (st : St) (h : st.out_file.isSome = true) :
    (close_output_file st).out_open = false := by
  by_cases h1 : pyTruthyStr st.last_field = true <;> simp [close_output_file, h1, h]

theorem close_out_open_none (st : St) (h : st.out_file = none) :
    (close_output_file st).out_open = st.out_open := by
  by_cases h1 : pyTruthyStr st.last_field = true <;> simp [close_output_file, h1, h]

theorem init_new_key (c : Config) (st : St) (k : String)
    (hnew : hasKey st.records_by_field k = false) :
    (init_output_file c st k).records_by_field = st.records_by_field ++ [(k, 0)] ∧
    (init_output_file c st k).headers = st.headers ∧
    (init_output_file c st k).last_field = st.last_field ∧
    (init_output_file c st k).out_file = some (fname c k) ∧
    (init_output_file c st k).out_open = true ∧
    (init_output_file c st k).fs =
      (if c.use_headers && pyTruthyRow st.headers then
        fsAppend (fsOpenTrunc st.fs (fname c k)) (fname c k) (st.headers.getD [])
      else fsOpenTrunc st.fs (fname c k)) := by
  by_cases hcond : (c.use_headers && pyTruthyRow st.headers) = true <;>
    simp [init_output_file, hnew, hcond]

theorem init_old_key (c : Config) (st : St) (k : String)
    (hold : hasKey st.records_by_field k = true) :
    (init_output_file c st k).records_by_field = st.records_by_field ∧
    (init_output_file c st k).headers = st.headers ∧
    (init_output_file c st k).last_field = st.last_field ∧
    (init_output_file c st k).out_file = some (fname c k) ∧
    (init_output_file c st k).out_open = true ∧
    (init_output_file c st k).fs = fsOpenTrunc st.fs (fname c k) := by
  simp [init_output_file, hold]

theorem finishRow_fields (st : St) (k : String) (cols : Row) (f : String)
    (hout : st.out_file = some f) :
    (finishRow st k cols).records_by_field = dict_incr st.records_by_field k ∧
    (finishRow st k cols).headers = st.headers ∧
    (finishRow st k cols).last_field = some k ∧
    (finishRow st k cols).out_file = some f ∧
    (finishRow st k cols).out_open = st.out_open ∧
    (finishRow st k cols).fs = fsAppend st.fs f cols := by
  simp [finishRow, writeRow, hout]

theorem dict_incr_mapform (l : List String) (f : String → Nat) (k : String) :
    dict_incr (l.map (fun x => (x, f x))) k =
      l.map (fun x => (x, if x = k then f x + 1 else f x)) := by
  induction l with
  | nil => rfl
  | cons a t ih =>
    rw [List.map_cons, dict_incr_cons, List.map_cons, ih]
    by_cases h : a = k <;> simp [h]

theorem hasKey_mapform (l : List String) (f : String → Nat) (k : String) :
    hasKey (l.map (fun x => (x, f x))) k = true ↔ k ∈ l := by
  rw [hasKey_iff_mem, List.map_map]
  simp [Function.comp_def]

/-! ### The pre-sorted run invariant -/

/-- After processing rows `rs` with (pre-sorted) key sequence `ks`, the
splitter state is fully determined: the count dictionary holds the run
keys in first-seen order with their multiplicities, the last field and
open output handle correspond to the final key, and (when distinct keys
have distinct filenames) each key's file holds the header plus its rows. -/
def Inv (c : Config) (hdr : Option Row) (ks : List String) (rs : List Row) (st : St) :
    Prop :=
  st.headers = hdr ∧
  ks.length = rs.length ∧
  st.records_by_field = (dedupAdj ks).map (fun k => (k, ks.count k)) ∧
  st.last_field = ks.getLast? ∧
  st.out_file = ks.getLast?.map (fname c) ∧
  st.out_open = !ks.isEmpty ∧
  (injFnames c ks → ∀ k ∈ ks, fsGet st.fs (fname c k) = hdrRows c hdr ++ keyRows k ks rs)

theorem Inv_init (c : Config) (hdr : Option Row) : Inv c hdr [] [] (initSt hdr) := by
  refine ⟨rfl, rfl, rfl, rfl, rfl, rfl, ?_⟩
  intro _ k hk
  exact absurd hk (List.not_mem_nil k)

theorem injFnames_of_append_left (c : Config) (l1 l2 : List String)
    (h : injFnames c (l1 ++ l2)) : injFnames c l1 := by
  intro a ha b hb hab
  exact h a (List.mem_append_left l2 ha) b (List.mem_append_left l2 hb) hab

theorem step_presorted (c : Config) (hdr : Option Row) (ks : List String) (rs : List Row)
    (st : St) (n : Nat) (r : Row) (k : String)
    (hk : keyOf c r = some k)
    (hInv : Inv c hdr ks rs st)
    (hps : presorted (ks ++ [k])) :
    ∃ st', step c n st r = .ok st' ∧ Inv c hdr (ks ++ [k]) (rs ++ [r]) st' := by
  obtain ⟨hh, hlen, hrec, hlast, hout, hopen, hfs⟩ := hInv
  by_cases hc : ks.getLast? = some k
  · -- continuation of the current run
    have hksne : ks ≠ [] := by
      intro hcon
      rw [hcon] at hc
      cases hc
    have hkmem : k ∈ ks := List.mem_of_mem_getLast? hc
    have hout' : st.out_file = some (fname c k) := by rw [hout, hc]; rfl
    have hstep : step c n st r = .ok (finishRow st k r) := by
      simp only [step, hk]
      rw [hlast, hc, if_pos rfl]
    obtain ⟨f1, f2, f3, f4, f5, f6⟩ := finishRow_fields st k r (fname c k) hout'
    refine ⟨finishRow st k r, hstep, ?_, ?_, ?_, ?_, ?_, ?_, ?_⟩
    · rw [f2, hh]
    · simp [hlen]
    · rw [f1, hrec, dict_incr_mapform, dedupAdj_snoc_last ks k hc]
      apply List.map_congr_left
      intro x hx
      by_cases hxk : x = k
      · subst hxk
        simp [List.count_append]
      · have h0 : List.count x [k] = 0 := List.count_eq_zero.2 (by simp [hxk])
        simp [List.count_append, hxk, h0]
    · rw [f3, List.getLast?_concat]
    · rw [f4, List.getLast?_concat]
      rfl
    · rw [f5, hopen]
      cases ks with
      | nil => exact absurd rfl hksne
      | cons a t => simp
    · intro hinj x hx
      have hinjks : injFnames c ks := injFnames_of_append_left c ks [k] hinj
      by_cases hxk : x = k
      · subst hxk
        rw [f6, fsGet_fsAppend_self, hfs hinjks x hkmem,
          keyRows_snoc x x r ks rs hlen, if_pos rfl, List.append_assoc]
      · have hxks : x ∈ ks := by
          rcases List.mem_append.1 hx with h1 | h1
          · exact h1
          · exact absurd (List.mem_singleton.1 h1) hxk
        have hfne : fname c x ≠ fname c k := by
          intro hcon
          exact hxk (hinj x hx k (List.mem_append_right ks (List.mem_singleton_self k)) hcon)
        rw [f6, fsGet_fsAppend_ne _ _ _ _ hfne, hfs hinjks x hxks,
          keyRows_snoc x k r ks rs hlen, if_neg (Ne.symm hxk), List.append_nil]
  · -- a brand-new run key
    have hmem : k ∉ ks := not_mem_of_presorted_snoc ks k hps hc
    have hlnot : ¬(some k = st.last_field) := by
      rw [hlast]
      intro hcon
      exact hc hcon.symm
    have hnew : hasKey st.records_by_field k = false := by
      rw [hrec, ← Bool.not_eq_true]
      intro hcon
      exact hmem ((hasKey_mapform (dedupAdj ks) _ k).1 hcon |> (mem_dedupAdj ks k).1)
    have hstep : step c n st r =
        .ok (finishRow (init_output_file c (close_output_file st) k) k r) := by
      simp only [step, hk]
      rw [if_neg hlnot, hnew]
      simp
    obtain ⟨cl1, cl2, cl3, cl4, cl5⟩ := close_preserve st
    have hnewcl : hasKey (close_output_file st).records_by_field k = false := by
      rw [cl1]
      exact hnew
    obtain ⟨i1, i2, i3, i4, i5, i6⟩ := init_new_key c (close_output_file st) k hnewcl
    obtain ⟨f1, f2, f3, f4, f5, f6⟩ :=
      finishRow_fields (init_output_file c (close_output_file st) k) k r (fname c k) i4
    have hheq : (init_output_file c (close_output_file st) k).headers = hdr := by
      rw [i2, cl3, hh]
    refine ⟨_, hstep, ?_, ?_, ?_, ?_, ?_, ?_, ?_⟩
    · rw [f2, hheq]
    · simp [hlen]
    · have hnewm :
          hasKey ((dedupAdj ks).map (fun x => (x, ks.count x))) k = false := by
        rw [← hrec]
        exact hnew
      rw [f1, i1, cl1, hrec]
      have hd : dict_incr ((dedupAdj ks).map (fun x => (x, ks.count x)) ++ [(k, 0)]) k
          = (dedupAdj ks).map (fun x => (x, ks.count x)) ++ [(k, 1)] := by
        rw [show dict_incr ((dedupAdj ks).map (fun x => (x, ks.count x)) ++ [(k, 0)]) k
            = dict_incr ((dedupAdj ks).map (fun x => (x, ks.count x))) k ++
              dict_incr [(k, 0)] k from by simp [dict_incr]]
        rw [dict_incr_of_not_hasKey _ _ hnewm]
        congr 1
        rw [dict_incr_cons, if_pos rfl, dict_incr_nil]
      rw [hd, dedupAdj_snoc_ne ks k hc, List.map_append]
      congr 1
      · apply List.map_congr_left
        intro x hx
        have hxk : x ≠ k := by
          intro hcon
          subst hcon
          exact hmem ((mem_dedupAdj ks x).1 hx)
        have h0 : List.count x [k] = 0 := List.count_eq_zero.2 (by simp [hxk])
        simp [List.count_append, hxk, h0]
      · have h0 : List.count k ks = 0 := List.count_eq_zero.2 hmem
        simp [List.count_append, h0]
    · rw [f3, List.getLast?_concat]
    · rw [f4, List.getLast?_concat]
      rfl
    · rw [f5, i5]
      cases ks <;> rfl
    · intro hinj x hx
      have hinjks : injFnames c ks := injFnames_of_append_left c ks [k] hinj
      by_cases hxk : x = k
      · subst hxk
        rw [f6, i6, cl2, cl3, hh]
        by_cases hcond : (c.use_headers && pyTruthyRow hdr) = true
        · rw [if_pos hcond, fsGet_fsAppend_self, fsGet_fsAppend_self, fsOpenTrunc,
            fsGet_fsSet_self]
          rw [hdrRows, if_pos hcond, keyRows_snoc x x r ks rs hlen, if_pos rfl,
            keyRows_not_mem x ks rs hmem]
          simp
        · rw [if_neg hcond, fsGet_fsAppend_self, fsOpenTrunc, fsGet_fsSet_self]
          rw [hdrRows, if_neg hcond, keyRows_snoc x x r ks rs hlen, if_pos rfl,
            keyRows_not_mem x ks rs hmem]
          simp
      · have hxks : x ∈ ks := by
          rcases List.mem_append.1 hx with h1 | h1
          · exact h1
          · exact absurd (List.mem_singleton.1 h1) hxk
        have hfne : fname c x ≠ fname c k := by
          intro hcon
          exact hxk (hinj x hx k (List.mem_append_right ks (List.mem_singleton_self k)) hcon)
        rw [f6, fsGet_fsAppend_ne _ _ _ _ hfne, i6, cl2, cl3, hh]
        by_cases hcond : (c.use_headers && pyTruthyRow hdr) = true
        · rw [if_pos hcond, fsGet_fsAppend_ne _ _ _ _ hfne, fsOpenTrunc,
            fsGet_fsSet_ne _ _ _ _ hfne]
          rw [hfs hinjks x hxks, keyRows_snoc x k r ks rs hlen, if_neg (Ne.symm hxk),
            List.append_nil]
        · rw [if_neg hcond, fsOpenTrunc, fsGet_fsSet_ne _ _ _ _ hfne]
          rw [hfs hinjks x hxks, keyRows_snoc x k r ks rs hlen, if_neg (Ne.symm hxk),
            List.append_nil]

theorem runLoop_presorted (c : Config) (hdr : Option Row) :
    ∀ (rest : List Row) (ks2 ks1 : List String) (rs1 : List Row) (st : St) (n : Nat),
      extractKeys c rest = some ks2 →
      Inv c hdr ks1 rs1 st →
      presorted (ks1 ++ ks2) →
      ∃ st', runLoop c n st rest = .ok st' ∧ Inv c hdr (ks1 ++ ks2) (rs1 ++ rest) st' := by
  intro rest
  induction rest with
  | nil =>
    intro ks2 ks1 rs1 st n hex hInv _
    simp only [extractKeys] at hex
    cases hex
    exact ⟨st, rfl, by simpa using hInv⟩
  | cons r t ih =>
    intro ks2 ks1 rs1 st n hex hInv hps
    simp only [extractKeys] at hex
    cases hkr : keyOf c r with
    | none => rw [hkr] at hex; cases hex
    | some k =>
      rw [hkr] at hex
      cases hkt : extractKeys c t with
      | none => rw [hkt] at hex; cases hex
      | some kt =>
        rw [hkt] at hex
        cases hex
        have hps1 : presorted (ks1 ++ [k]) := by
          apply presorted_of_append_left (ks1 ++ [k]) kt
          simpa [List.append_assoc] using hps
        obtain ⟨st1, hstep, hInv1⟩ := step_presorted c hdr ks1 rs1 st n r k hkr hInv hps1
        have hps2 : presorted ((ks1 ++ [k]) ++ kt) := by
          simpa [List.append_assoc] using hps
        obtain ⟨st', hloop, hInv'⟩ := ih kt (ks1 ++ [k]) (rs1 ++ [r]) st1 (n + 1) hkt hInv1 hps2
        refine ⟨st', ?_, ?_⟩
        · simp only [runLoop, hstep]
          exact hloop
        · simpa [List.append_assoc] using hInv'

/-! ### Claim C1 -/

/-- C1 (amended): for every pre-sorted input whose distinct group keys map to
distinct destination filenames, the non-relaxed run succeeds and
concatenating the data rows of the output files in first-seen-group order
(dropping the written per-file header) reconstructs the data-row sequence.
The run is modelled from the point after the optional header line has been
consumed (`runFrom` on the data rows with the recorded header `hdr`). -/
theorem C1_theorem (c : Config) (hdr : Option Row) (p : List Row) (ks : List String)
    (_hforce : c.force = false)
    (hkeys : extractKeys c p = some ks)
    (hps : presorted ks)
    (hinj : injFnames c ks) :
    (resultState (runFrom c (initSt hdr) p)).map (reconcat c) = some p := by
  obtain ⟨st1, hloop, hInv⟩ :=
    runLoop_presorted c hdr p ks [] [] (initSt hdr) 1 hkeys (Inv_init c hdr)
      (by simpa using hps)
  simp only [List.nil_append] at hInv
  obtain ⟨hh, hlen, hrec, hlast, hout, hopen, hfs⟩ := hInv
  obtain ⟨cp1, cp2, cp3, cp4, cp5⟩ := close_preserve st1
  have hrun : runFrom c (initSt hdr) p = .ok
      { close_output_file st1 with log := (close_output_file st1).log ++
          [.summary (sumCounts (close_output_file st1).records_by_field)
            (close_output_file st1).records_by_field.length, .finished] } := by
    unfold runFrom
    rw [hloop]
  rw [hrun]
  simp only [resultState, Option.map_some']
  congr 1
  unfold reconcat
  have e1 : ({ close_output_file st1 with log := (close_output_file st1).log ++
      [.summary (sumCounts (close_output_file st1).records_by_field)
        (close_output_file st1).records_by_field.length, .finished] } : St).records_by_field
      = (dedupAdj ks).map (fun k => (k, ks.count k)) := by
    show (close_output_file st1).records_by_field = _
    rw [cp1, hrec]
  have e2 : ({ close_output_file st1 with log := (close_output_file st1).log ++
      [.summary (sumCounts (close_output_file st1).records_by_field)
        (close_output_file st1).records_by_field.length, .finished] } : St).fs = st1.fs := by
    show (close_output_file st1).fs = _
    rw [cp2]
  have e3 : ({ close_output_file st1 with log := (close_output_file st1).log ++
      [.summary (sumCounts (close_output_file st1).records_by_field)
        (close_output_file st1).records_by_field.length, .finished] } : St).headers = hdr := by
    show (close_output_file st1).headers = _
    rw [cp3, hh]
  rw [e1, e2, e3]
  have e4 : ((dedupAdj ks).map (fun k => (k, ks.count k))).map Prod.fst = dedupAdj ks := by
    simp [Function.comp_def]
  rw [e4]
  have e5 : (dedupAdj ks).map
      (fun k => (fsGet st1.fs (fname c k)).drop (hdrRows c hdr).length) =
      (dedupAdj ks).map (fun k => keyRows k ks p) := by
    apply List.map_congr_left
    intro x hx
    rw [hfs hinj x ((mem_dedupAdj ks x).1 hx), List.drop_left]
  rw [e5]
  exact flatten_keyRows_presorted ks p hps hlen

/-- C1 as literally stated is false: the sanitizer can collide two distinct
keys into one filename.  With keys `"a/"` and `"a"` (pre-sorted: one run
each, no headers, non-relaxed mode) the second group truncates the first
group's file, so concatenating the output files in first-seen-group order
yields `[["a"], ["a"]]`, not the original `[["a/"], ["a"]]`. -/
theorem C1_counterexample :
    presorted ["a/", "a"] ∧
    extractKeys ⟨1, "out-", ".csv", false, false⟩ [["a/"], ["a"]] = some ["a/", "a"] ∧
    (resultState (runSplitter ⟨1, "out-", ".csv", false, false⟩ [["a/"], ["a"]])).map
      (reconcat ⟨1, "out-", ".csv", false, false⟩) = some [["a"], ["a"]] ∧
    some [["a"], ["a"]] ≠ some [["a/"], ["a"]] := by
  refine ⟨by decide, by decide, by decide, by decide⟩

/-- Witness for C1: a concrete pre-sorted collision-free run reconstructs. -/
theorem C1_witness :
    (resultState (runFrom ⟨1, "out-", ".tsv", false, false⟩ (initSt none)
        [["A"], ["A"], ["B"]])).map (reconcat ⟨1, "out-", ".tsv", false, false⟩) =
      some [["A"], ["A"], ["B"]] :=
  C1_theorem ⟨1, "out-", ".tsv", false, false⟩ none [["A"], ["A"], ["B"]] ["A", "A", "B"]
    rfl (by decide) (by decide) (by decide)

/-! ### Claim C2: record counts -/

/-- The fields of `finishRow` that do not depend on the open file. -/
theorem finishRow_weak (st : St) (k : String) (cols : Row) :
    (finishRow st k cols).records_by_field = dict_incr st.records_by_field k ∧
    (finishRow st k cols).headers = st.headers ∧
    (finishRow st k cols).last_field = some k ∧
    (finishRow st k cols).out_open = st.out_open ∧
    (finishRow st k cols).out_file = st.out_file := by
  unfold finishRow writeRow
  cases st.out_file <;> simp

/-- Count invariant: the dictionary stores exactly the multiset of keys
seen so far, and the sum of its values is the number of rows processed. -/
def CInv (ks : List String) (st : St) : Prop :=
  (∀ k, lookupCount st.records_by_field k = ks.count k) ∧
  (∀ k, hasKey st.records_by_field k = true ↔ k ∈ ks) ∧
  (st.records_by_field.map Prod.fst).Nodup ∧
  sumCounts st.records_by_field = ks.length ∧
  st.last_field = ks.getLast?

theorem CInv_init (hdr : Option Row) : CInv [] (initSt hdr) := by
  refine ⟨fun k => rfl, fun k => ?_, List.nodup_nil, rfl, rfl⟩
  simp [initSt, hasKey_nil]

theorem counts_incr (ks1 : List String) (d : List (String × Nat)) (k : String)
    (hkmem : k ∈ ks1)
    (hcnt : ∀ k', lookupCount d k' = ks1.count k')
    (hmem : ∀ k', hasKey d k' = true ↔ k' ∈ ks1)
    (hnd : (d.map Prod.fst).Nodup)
    (hsum : sumCounts d = ks1.length) :
    (∀ k', lookupCount (dict_incr d k) k' = (ks1 ++ [k]).count k') ∧
    (∀ k', hasKey (dict_incr d k) k' = true ↔ k' ∈ ks1 ++ [k]) ∧
    ((dict_incr d k).map Prod.fst).Nodup ∧
    sumCounts (dict_incr d k) = (ks1 ++ [k]).length := by
  have hhk : hasKey d k = true := (hmem k).2 hkmem
  refine ⟨?_, ?_, ?_, ?_⟩
  · intro k'
    by_cases hk' : k' = k
    · subst hk'
      rw [lookupCount_dict_incr_self _ _ hhk, hcnt k']
      simp [List.count_append]
    · rw [lookupCount_dict_incr_ne _ _ _ hk', hcnt k']
      have h0 : List.count k' [k] = 0 := List.count_eq_zero.2 (by simp [hk'])
      simp [List.count_append, h0]
  · intro k'
    rw [hasKey_dict_incr, hmem k']
    constructor
    · intro h1
      exact List.mem_append_left _ h1
    · intro h1
      rcases List.mem_append.1 h1 with h1 | h1
      · exact h1
      · rw [List.mem_singleton.1 h1]
        exact hkmem
  · rw [keys_dict_incr]
    exact hnd
  · rw [sumCounts_dict_incr _ _ hhk hnd, hsum]
    simp

theorem counts_new (ks1 : List String) (d : List (String × Nat)) (k : String)
    (hknot : k ∉ ks1)
    (hcnt : ∀ k', lookupCount d k' = ks1.count k')
    (hmem : ∀ k', hasKey d k' = true ↔ k' ∈ ks1)
    (hnd : (d.map Prod.fst).Nodup)
    (hsum : sumCounts d = ks1.length) :
    (∀ k', lookupCount (dict_incr (d ++ [(k, 0)]) k) k' = (ks1 ++ [k]).count k') ∧
    (∀ k', hasKey (dict_incr (d ++ [(k, 0)]) k) k' = true ↔ k' ∈ ks1 ++ [k]) ∧
    ((dict_incr (d ++ [(k, 0)]) k).map Prod.fst).Nodup ∧
    sumCounts (dict_incr (d ++ [(k, 0)]) k) = (ks1 ++ [k]).length := by
  have hdk : hasKey d k = false := by
    rw [← Bool.not_eq_true]
    intro hcon
    exact hknot ((hmem k).1 hcon)
  have hk0 : hasKey (d ++ [(k, 0)]) k = true := by
    rw [hasKey_append_single]
    simp
  have hnd' : ((d ++ [(k, 0)]).map Prod.fst).Nodup := by
    rw [List.map_append]
    simp only [List.map_cons, List.map_nil]
    rw [List.nodup_append]
    refine ⟨hnd, List.nodup_singleton k, ?_⟩
    intro a ha hb
    rw [List.mem_singleton.1 hb] at ha
    exact absurd ((hasKey_iff_mem d k).2 ha) (by simp [hdk])
  refine ⟨?_, ?_, ?_, ?_⟩
  · intro k'
    by_cases hk' : k' = k
    · subst hk'
      rw [lookupCount_dict_incr_self _ _ hk0, lookupCount_append_right _ _ _ hdk]
      have h0 : List.count k' ks1 = 0 := List.count_eq_zero.2 hknot
      simp [List.count_append, h0]
    · rw [lookupCount_dict_incr_ne _ _ _ hk', lookupCount_append_miss _ _ _ _ hk', hcnt k']
      have h0 : List.count k' [k] = 0 := List.count_eq_zero.2 (by simp [hk'])
      simp [List.count_append, h0]
  · intro k'
    rw [hasKey_dict_incr, hasKey_append_single]
    by_cases hk' : k' = k
    · subst hk'
      simp
    · have hd0 : decide (k' = k) = false := by simp [hk']
      rw [hd0, Bool.or_false, hmem k']
      constructor
      · intro h1
        exact List.mem_append_left _ h1
      · intro h1
        rcases List.mem_append.1 h1 with h1 | h1
        · exact h1
        · exact absurd (List.mem_singleton.1 h1) hk'
  · rw [keys_dict_incr]
    exact hnd'
  · rw [sumCounts_dict_incr _ _ hk0 hnd', sumCounts_append_single, hsum]
    simp

theorem step_counts (c : Config) (ks1 : List String) (st st1 : St) (n : Nat) (r : Row)
    (k : String)
    (hk : keyOf c r = some k) (hC : CInv ks1 st) (hs : step c n st r = .ok st1) :
    CInv (ks1 ++ [k]) st1 := by
  obtain ⟨hcnt, hmem, hnd, hsum, hlast⟩ := hC
  by_cases hl : some k = st.last_field
  · have hstep : step c n st r = .ok (finishRow st k r) := by
      simp only [step, hk, if_pos hl]
    rw [hstep] at hs
    cases hs
    have hgl : ks1.getLast? = some k := by rw [← hlast, ← hl]
    have hkmem : k ∈ ks1 := List.mem_of_mem_getLast? hgl
    obtain ⟨w1, w2, w3, w4, w5⟩ := finishRow_weak st k r
    obtain ⟨q1, q2, q3, q4⟩ := counts_incr ks1 st.records_by_field k hkmem hcnt hmem hnd hsum
    refine ⟨?_, ?_, ?_, ?_, ?_⟩
    · intro k'; rw [w1]; exact q1 k'
    · intro k'; rw [w1]; exact q2 k'
    · rw [w1]; exact q3
    · rw [w1]; exact q4
    · rw [w3, List.getLast?_concat]
  · by_cases hsk : hasKey st.records_by_field k = true
    · cases hforce : c.force with
      | false =>
        have hstep : step c n st r = .error (.keyError k n, st) := by
          simp only [step, hk, if_neg hl, hsk, hforce]
          simp
        rw [hstep] at hs
        cases hs
      | true =>
        have hstep : step c n st r = .ok
            (finishRow (init_output_file c
              (close_output_file { st with log := st.log ++ [Msg.warnAlreadySeen k n] }) k)
              k r) := by
          simp only [step, hk, if_neg hl, hsk, hforce]
          simp
        rw [hstep] at hs
        cases hs
        have hkmem : k ∈ ks1 := (hmem k).1 hsk
        obtain ⟨cl1, cl2, cl3, cl4, cl5⟩ :=
          close_preserve { st with log := st.log ++ [Msg.warnAlreadySeen k n] }
        have hclk : hasKey (close_output_file
            { st with log := st.log ++ [Msg.warnAlreadySeen k n] }).records_by_field k =
            true := by
          rw [cl1]
          exact hsk
        obtain ⟨i1, i2, i3, i4, i5, i6⟩ := init_old_key c _ k hclk
        obtain ⟨w1, w2, w3, w4, w5⟩ := finishRow_weak _ k r
        have hrecs : (finishRow (init_output_file c
            (close_output_file { st with log := st.log ++ [Msg.warnAlreadySeen k n] }) k)
            k r).records_by_field = dict_incr st.records_by_field k := by
          rw [w1, i1, cl1]
        obtain ⟨q1, q2, q3, q4⟩ :=
          counts_incr ks1 st.records_by_field k hkmem hcnt hmem hnd hsum
        refine ⟨?_, ?_, ?_, ?_, ?_⟩
        · intro k'; rw [hrecs]; exact q1 k'
        · intro k'; rw [hrecs]; exact q2 k'
        · rw [hrecs]; exact q3
        · rw [hrecs]; exact q4
        · rw [w3, List.getLast?_concat]
    · have hskf : hasKey st.records_by_field k = false := by
        simpa using hsk
      have hstep : step c n st r = .ok
          (finishRow (init_output_file c (close_output_file st) k) k r) := by
        simp only [step, hk, if_neg hl, hskf]
        simp
      rw [hstep] at hs
      cases hs
      have hknot : k ∉ ks1 := fun hcon => hsk ((hmem k).2 hcon)
      obtain ⟨cl1, cl2, cl3, cl4, cl5⟩ := close_preserve st
      have hclk : hasKey (close_output_file st).records_by_field k = false := by
        rw [cl1]
        exact hskf
      obtain ⟨i1, i2, i3, i4, i5, i6⟩ := init_new_key c (close_output_file st) k hclk
      obtain ⟨w1, w2, w3, w4, w5⟩ := finishRow_weak _ k r
      have hrecs : (finishRow (init_output_file c (close_output_file st) k)
          k r).records_by_field = dict_incr (st.records_by_field ++ [(k, 0)]) k := by
        rw [w1, i1, cl1]
      obtain ⟨q1, q2, q3, q4⟩ :=
        counts_new ks1 st.records_by_field k hknot hcnt hmem hnd hsum
      refine ⟨?_, ?_, ?_, ?_, ?_⟩
      · intro k'; rw [hrecs]; exact q1 k'
      · intro k'; rw [hrecs]; exact q2 k'
      · rw [hrecs]; exact q3
      · rw [hrecs]; exact q4
      · rw [w3, List.getLast?_concat]

theorem runLoop_counts (c : Config) :
    ∀ (p : List Row) (ks2 ks1 : List String) (st st' : St) (n : Nat),
      extractKeys c p = some ks2 → CInv ks1 st → runLoop c n st p = .ok st' →
      CInv (ks1 ++ ks2) st' := by
  intro p
  induction p with
  | nil =>
    intro ks2 ks1 st st' n hex hC hrun
    simp only [extractKeys] at hex
    cases hex
    simp only [runLoop] at hrun
    cases hrun
    simpa using hC
  | cons r t ih =>
    intro ks2 ks1 st st' n hex hC hrun
    simp only [extractKeys] at hex
    cases hkr : keyOf c r with
    | none => rw [hkr] at hex; cases hex
    | some k =>
      rw [hkr] at hex
      cases hkt : extractKeys c t with
      | none => rw [hkt] at hex; cases hex
      | some kt =>
        rw [hkt] at hex
        cases hex
        simp only [runLoop] at hrun
        cases hstep : step c n st r with
        | error e => rw [hstep] at hrun; cases hrun
        | ok stm =>
          rw [hstep] at hrun
          have hC1 := step_counts c ks1 st stm n r k hkr hC hstep
          have := ih kt (ks1 ++ [k]) stm st' (n + 1) hkt hC1 hrun
          simpa [List.append_assoc] using this

/-- C2: at every point of a run (`runLoop` over any processed row list,
hence over every prefix of a longer run, by `runLoop_append_ok`), each
group's dictionary entry — the number `close_output_file` reports at that
group's file-close — equals the number of rows of that group written so
far, and the dictionary values sum to the number of data rows read.  For a
completed run, the final summary message reports that total. -/
theorem C2_theorem (c : Config) (hdr : Option Row) (p : List Row) (ks : List String)
    (hkeys : extractKeys c p = some ks) :
    (∀ (n : Nat) (st1 : St), runLoop c n (initSt hdr) p = .ok st1 →
      (∀ k, lookupCount st1.records_by_field k = ks.count k) ∧
      sumCounts st1.records_by_field = p.length) ∧
    (∀ st2 : St, runFrom c (initSt hdr) p = .ok st2 →
      sumCounts st2.records_by_field = p.length ∧
      st2.log.getLast? = some .finished ∧
      st2.log.dropLast.getLast? =
        some (.summary p.length st2.records_by_field.length)) := by
  have hlen : ks.length = p.length := extractKeys_length c p ks hkeys
  have main : ∀ (n : Nat) (st1 : St), runLoop c n (initSt hdr) p = .ok st1 →
      (∀ k, lookupCount st1.records_by_field k = ks.count k) ∧
      sumCounts st1.records_by_field = p.length := by
    intro n st1 hrun
    have hC := runLoop_counts c p ks [] (initSt hdr) st1 n hkeys (CInv_init hdr) hrun
    simp only [List.nil_append] at hC
    obtain ⟨hcnt, _, _, hsum, _⟩ := hC
    exact ⟨hcnt, by rw [hsum, hlen]⟩
  refine ⟨main, ?_⟩
  intro st2 hrun2
  unfold runFrom at hrun2
  cases hloop : runLoop c 1 (initSt hdr) p with
  | error e => rw [hloop] at hrun2; cases hrun2
  | ok st1 =>
    rw [hloop] at hrun2
    cases hrun2
    obtain ⟨hcnt, hsum⟩ := main 1 st1 hloop
    obtain ⟨cp1, cp2, cp3, cp4, cp5⟩ := close_preserve st1
    have hsum2 : sumCounts (close_output_file st1).records_by_field = p.length := by
      rw [cp1, hsum]
    refine ⟨hsum2, ?_, ?_⟩
    · show ((close_output_file st1).log ++
        [Msg.summary (sumCounts (close_output_file st1).records_by_field)
          (close_output_file st1).records_by_field.length, Msg.finished]).getLast? = _
      rw [show (close_output_file st1).log ++
        [Msg.summary (sumCounts (close_output_file st1).records_by_field)
          (close_output_file st1).records_by_field.length, Msg.finished] =
        ((close_output_file st1).log ++
          [Msg.summary (sumCounts (close_output_file st1).records_by_field)
            (close_output_file st1).records_by_field.length]) ++ [Msg.finished] from by
        simp]
      rw [List.getLast?_concat]
    · show (((close_output_file st1).log ++
        [Msg.summary (sumCounts (close_output_file st1).records_by_field)
          (close_output_file st1).records_by_field.length, Msg.finished]).dropLast).getLast?
        = _
      rw [show (close_output_file st1).log ++
        [Msg.summary (sumCounts (close_output_file st1).records_by_field)
          (close_output_file st1).records_by_field.length, Msg.finished] =
        ((close_output_file st1).log ++
          [Msg.summary (sumCounts (close_output_file st1).records_by_field)
            (close_output_file st1).records_by_field.length]) ++ [Msg.finished] from by
        simp]
      rw [List.dropLast_concat, List.getLast?_concat, hsum2]

/-- Witness for C2 at a concrete two-row one-group input. -/
theorem C2_witness :
    (resultState (runLoop ⟨1, "s", ".t", false, false⟩ 1 (initSt none) [["A"], ["A"]])).map
      (fun st => (lookupCount st.records_by_field "A", sumCounts st.records_by_field)) =
      some (2, 2) := by
  have hrun : runLoop ⟨1, "s", ".t", false, false⟩ 1 (initSt none) [["A"], ["A"]] =
      .ok ⟨none, some "A", [("A", 2)], some "sA.t", true, [("sA.t", [["A"], ["A"]])],
        [.writingTo "sA.t" "A"]⟩ := by rfl
  have h := (C2_theorem ⟨1, "s", ".t", false, false⟩ none [["A"], ["A"]] ["A", "A"]
    (by decide)).1 1 _ hrun
  rw [hrun]
  simp only [resultState, Option.map_some']
  rw [h.1 "A", h.2]
  decide

/-! ### Claim C3: out-of-order detection in non-relaxed mode -/

/-- C3 (amended): when a key `k` recurs after a pre-sorted prefix whose last
key differs from `k`, the non-relaxed run raises `KeyError` at that row,
citing the key and the 1-based *data-row* index (`enumerate(in_reader, 1)`
counts data rows after the header, so this equals the input line number
only when no header line is consumed).  Nothing after that row is
processed: the error is returned whatever `rest` contains. -/
theorem C3_theorem (c : Config) (hdr : Option Row) (pre : List Row) (r : Row)
    (rest : List Row) (ks : List String) (k : String)
    (hforce : c.force = false)
    (hpre : extractKeys c pre = some ks)
    (hps : presorted ks)
    (hk : keyOf c r = some k)
    (hmem : k ∈ ks)
    (hlast : ks.getLast? ≠ some k) :
    errOf (runFrom c (initSt hdr) (pre ++ r :: rest)) =
      some (.keyError k (ks.length + 1)) := by
  have hlen : ks.length = pre.length := extractKeys_length c pre ks hpre
  obtain ⟨st1, hloop, hInv⟩ :=
    runLoop_presorted c hdr pre ks [] [] (initSt hdr) 1 hpre (Inv_init c hdr)
      (by simpa using hps)
  simp only [List.nil_append] at hInv
  obtain ⟨hh, hlen2, hrec, hlast1, hout, hopen, hfs⟩ := hInv
  have hstep : step c (1 + pre.length) st1 r =
      .error (.keyError k (1 + pre.length), st1) := by
    simp only [step, hk]
    have hl : ¬(some k = st1.last_field) := by
      rw [hlast1]
      intro hcon
      exact hlast hcon.symm
    rw [if_neg hl]
    have hsk : hasKey st1.records_by_field k = true := by
      rw [hrec]
      exact (hasKey_mapform _ _ k).2 ((mem_dedupAdj ks k).2 hmem)
    rw [hsk, hforce]
    simp
  have happ := runLoop_append_ok c pre 1 (initSt hdr) st1 (r :: rest) hloop
  have hfull : runLoop c 1 (initSt hdr) (pre ++ r :: rest) =
      .error (.keyError k (1 + pre.length), st1) := by
    rw [happ]
    simp only [runLoop, hstep]
  unfold runFrom
  rw [hfull]
  simp only [errOf]
  rw [hlen, Nat.add_comm]

/-- C3 as stated (citing the 1-based *input* line number) is false when a
header is consumed: on header plus group sequence `[A, A, B, A]` the
offending row is input line 5, but the code reports `line: 4` (its
enumeration starts at 1 on the first data row). -/
theorem C3_counterexample :
    errOf (runSplitter ⟨1, "o", ".t", true, false⟩
        [["h"], ["A"], ["A"], ["B"], ["A"]]) = some (.keyError "A" 4) ∧
    RunError.keyError "A" 4 ≠ RunError.keyError "A" 5 := by
  exact ⟨by rfl, by decide⟩

/-- Witness for C3 on the spec's `[A, A, B, A]` sequence without a header. -/
theorem C3_witness :
    errOf (runFrom ⟨1, "o", ".t", false, false⟩ (initSt none)
        [["A"], ["A"], ["B"], ["A"]]) = some (.keyError "A" 4) :=
  C3_theorem ⟨1, "o", ".t", false, false⟩ none [["A"], ["A"], ["B"]] ["A"] []
    ["A", "A", "B"] "A" rfl (by rfl) (by decide) (by rfl) (by decide) (by decide)

/-! ### Claim C5: short rows abort the run -/

/-- C5: a data row with fewer fields than the (positive) 1-based column
index raises `IndexError` at that row; the error is returned no matter
what `rest` follows, so no later row is processed and nothing is skipped. -/
theorem C5_theorem (c : Config) (hdr : Option Row) (pre : List Row) (cols : Row)
    (rest : List Row) (stp : St)
    (hpre : runLoop c 1 (initSt hdr) pre = .ok stp)
    (hcol : 1 ≤ c.column)
    (hshort : (cols.length : Int) < c.column) :
    errOf (runFrom c (initSt hdr) (pre ++ cols :: rest)) =
      some (.indexError (pre.length + 1)) := by
  have hkey : keyOf c cols = none := by
    unfold keyOf pyIndex
    rw [if_pos (by omega : (0 : Int) ≤ c.column - 1)]
    exact List.get?_eq_none.2 (by omega)
  have hstep : step c (1 + pre.length) stp cols =
      .error (.indexError (1 + pre.length), stp) := by
    simp only [step, hkey]
  have happ := runLoop_append_ok c pre 1 (initSt hdr) stp (cols :: rest) hpre
  have hfull : runLoop c 1 (initSt hdr) (pre ++ cols :: rest) =
      .error (.indexError (1 + pre.length), stp) := by
    rw [happ]
    simp only [runLoop, hstep]
  unfold runFrom
  rw [hfull]
  simp only [errOf]
  rw [Nat.add_comm]

/-- Witness for C5: column 2, second row has one field; the run aborts
there with `IndexError` at data row 2 even though a valid row follows. -/
theorem C5_witness :
    errOf (runFrom ⟨2, "o", ".t", false, false⟩ (initSt none)
        [["A", "x"], ["B"], ["C", "y"]]) = some (.indexError 2) :=
  C5_theorem ⟨2, "o", ".t", false, false⟩ none [["A", "x"]] ["B"] [["C", "y"]]
    ⟨none, some "x", [("x", 1)], some "ox.t", true, [("ox.t", [["A", "x"]])],
      [.writingTo "ox.t" "x"]⟩ (by rfl) (by decide) (by decide)

/-! ### Claim C7: the filename sanitizer -/

theorem protect_aux_eq_filter : ∀ l : List Char,
    protect_aux l = l.filter isSafeFilenameChar := by
  intro l
  induction l with
  | nil => rfl
  | cons ch t ih =>
    by_cases h : isSafeFilenameChar ch = true <;>
      simp [protect_aux, List.filter_cons, h, ih]

/-- C7: `protect_filename` removes exactly the characters outside
`{0-9, a-z, A-Z, _, ., -}` and keeps the rest in order (its output is the
filtered subsequence of its input), and the spec's concrete example holds:
key `"5o8w/A01:test"` with stub `"out-"` and suffix `".csv"` produces the
destination filename `"out-5o8wA01test.csv"`. -/
theorem C7_theorem :
    (∀ s : String, (protect_filename s).data = s.data.filter isSafeFilenameChar) ∧
    (∀ s : String, (protect_filename s).data.Sublist s.data) ∧
    get_output_filename "out-" (protect_filename "5o8w/A01:test") ".csv" =
      "out-5o8wA01test.csv" := by
  refine ⟨?_, ?_, by decide⟩
  · intro s
    exact protect_aux_eq_filter s.data
  · intro s
    rw [show (protect_filename s).data = protect_aux s.data from rfl,
      protect_aux_eq_filter s.data]
    exact List.filter_sublist s.data

/-! ### Claim C8: header-only input -/

/-- C8: with header-use enabled, an input consisting of exactly the header
line completes normally with an empty filesystem (zero output files), no
per-group messages, and the summary `Wrote 0 records to 0 files`. -/
theorem C8_theorem (c : Config) (h : Row) (hc : c.use_headers = true) :
    runSplitter c [h] = .ok
      { headers := some h, last_field := none, records_by_field := [],
        out_file := none, out_open := false, fs := [],
        log := [.summary 0 0, .finished] } := by
  unfold runSplitter
  rw [hc]
  rfl

/-- Witness for C8 at a concrete header row. -/
theorem C8_witness :
    runSplitter ⟨1, "o", ".t", true, false⟩ [["h1", "h2"]] = .ok
      { headers := some ["h1", "h2"], last_field := none, records_by_field := [],
        out_file := none, out_open := false, fs := [],
        log := [.summary 0 0, .finished] } :=
  C8_theorem ⟨1, "o", ".t", true, false⟩ ["h1", "h2"] rfl

/-! ### Claim C9: column 0 and negative columns index from the back -/

/-- C9: the splitter performs no startup validation of the column number;
for `column ≤ 0` the key is taken by Python negative indexing,
`cols[column - 1]` counting from the back — column 0 selects the last
field — provided the row has at least `1 - column` fields. -/
theorem C9_theorem (c : Config) (cols : Row)
    (hcol : c.column ≤ 0)
    (hlen : (1 - c.column).toNat ≤ cols.length) :
    keyOf c cols = cols.get? (cols.length - (1 - c.column).toNat) ∧
    (keyOf c cols).isSome = true ∧
    (c.column = 0 → keyOf c cols = cols.getLast?) := by
  have hneg : ¬(0 : Int) ≤ c.column - 1 := by omega
  have hpos : (0 : Int) ≤ (cols.length : Int) + (c.column - 1) := by omega
  have hidx : ((cols.length : Int) + (c.column - 1)).toNat =
      cols.length - (1 - c.column).toNat := by omega
  have hkey : keyOf c cols = cols.get? (cols.length - (1 - c.column).toNat) := by
    unfold keyOf pyIndex
    rw [if_neg hneg, if_pos hpos, hidx]
  refine ⟨hkey, ?_, ?_⟩
  · rw [hkey, Option.isSome_iff_ne_none]
    intro hcon
    rw [List.get?_eq_none] at hcon
    omega
  · intro h0
    rw [hkey, h0]
    have h1 : (1 - (0 : Int)).toNat = 1 := by omega
    rw [h0] at hlen
    rw [h1] at hlen ⊢
    rw [List.get?_eq_getElem?, List.getLast?_eq_getElem?]

/-- Witness for C9: column 0 selects the last field of `["a", "b", "c"]`. -/
theorem C9_witness :
    keyOf ⟨0, "o", ".t", false, false⟩ ["a", "b", "c"] =
      ["a", "b", "c"].get? (["a", "b", "c"].length - (1 - (0 : Int)).toNat) ∧
    (keyOf ⟨0, "o", ".t", false, false⟩ ["a", "b", "c"]).isSome = true ∧
    ((⟨0, "o", ".t", false, false⟩ : Config).column = 0 →
      keyOf ⟨0, "o", ".t", false, false⟩ ["a", "b", "c"] = ["a", "b", "c"].getLast?) :=
  C9_theorem ⟨0, "o", ".t", false, false⟩ ["a", "b", "c"] (by decide) (by decide)

/-! ### Claim C10: the empty-string group key is silently closed -/

/-- C10: when the last-seen key is the empty string (falsy in Python), the
close routine emits no per-group summary message, still closes an open
handle, and leaves the count dictionary (hence the final totals) intact. -/
theorem C10_theorem (st : St) (h : st.last_field = some "") :
    (close_output_file st).log = st.log ∧
    (close_output_file st).records_by_field = st.records_by_field ∧
    (close_output_file st).fs = st.fs ∧
    (st.out_file.isSome = true → (close_output_file st).out_open = false) := by
  have hfalsy : pyTruthyStr st.last_field = false := by
    rw [h]
    rfl
  by_cases h2 : st.out_file.isSome = true <;>
    simp [close_output_file, hfalsy, h2]

/-- Witness for C10 at a concrete state whose last field is `""`. -/
theorem C10_witness :
    (close_output_file ⟨none, some "", [("", 1)], some "f", true, [], []⟩).log =
      (⟨none, some "", [("", 1)], some "f", true, [], []⟩ : St).log ∧
    (close_output_file
        ⟨none, some "", [("", 1)], some "f", true, [], []⟩).records_by_field =
      (⟨none, some "", [("", 1)], some "f", true, [], []⟩ : St).records_by_field ∧
    (close_output_file ⟨none, some "", [("", 1)], some "f", true, [], []⟩).fs =
      (⟨none, some "", [("", 1)], some "f", true, [], []⟩ : St).fs ∧
    ((⟨none, some "", [("", 1)], some "f", true, [], []⟩ : St).out_file.isSome = true →
      (close_output_file ⟨none, some "", [("", 1)], some "f", true, [], []⟩).out_open =
        false) :=
  C10_theorem ⟨none, some "", [("", 1)], some "f", true, [], []⟩ rfl

/-! ### Claim C6: what happens to the open handle on a fatal error -/

/-- The state carried by a run outcome, successful or not. -/
def anyState : Except (RunError × St) St → St
  | .ok st => st
  | .error (_, st) => st

/-- The handle invariant: once any row has been processed (the dictionary
is non-empty), the output handle is open. -/
def QOpen (st : St) : Prop :=
  (st.records_by_field = [] → st.last_field = none) ∧
  (st.records_by_field ≠ [] → st.out_open = true)

theorem dict_incr_ne_nil (d : List (String × Nat)) (k : String) (h : d ≠ []) :
    dict_incr d k ≠ [] := by
  cases d with
  | nil => exact absurd rfl h
  | cons p t =>
    rw [dict_incr_cons]
    exact List.cons_ne_nil _ _

theorem step_QOpen (c : Config) (st : St) (n : Nat) (r : Row) (hQ : QOpen st) :
    QOpen (anyState (step c n st r)) := by
  obtain ⟨hq1, hq2⟩ := hQ
  cases hkr : keyOf c r with
  | none =>
    simp only [step, hkr, anyState]
    exact ⟨hq1, hq2⟩
  | some k =>
    by_cases hl : some k = st.last_field
    · have hne : st.records_by_field ≠ [] := by
        intro hcon
        rw [hq1 hcon] at hl
        cases hl
      obtain ⟨w1, w2, w3, w4, w5⟩ := finishRow_weak st k r
      have hstep : step c n st r = .ok (finishRow st k r) := by
        simp only [step, hkr, if_pos hl]
      rw [hstep]
      simp only [anyState]
      refine ⟨?_, ?_⟩
      · intro hcon
        rw [w1] at hcon
        exact absurd hcon (dict_incr_ne_nil _ _ hne)
      · intro _
        rw [w4]
        exact hq2 hne
    · by_cases hsk : hasKey st.records_by_field k = true
      · have hne : st.records_by_field ≠ [] := by
          intro hcon
          rw [hcon, hasKey_nil] at hsk
          cases hsk
        cases hforce : c.force with
        | false =>
          have hstep : step c n st r = .error (.keyError k n, st) := by
            simp only [step, hkr, if_neg hl, hsk, hforce]
            simp
          rw [hstep]
          simp only [anyState]
          exact ⟨hq1, hq2⟩
        | true =>
          have hstep : step c n st r = .ok
              (finishRow (init_output_file c
                (close_output_file
                  { st with log := st.log ++ [Msg.warnAlreadySeen k n] }) k) k r) := by
            simp only [step, hkr, if_neg hl, hsk, hforce]
            simp
          rw [hstep]
          simp only [anyState]
          obtain ⟨cl1, cl2, cl3, cl4, cl5⟩ :=
            close_preserve { st with log := st.log ++ [Msg.warnAlreadySeen k n] }
          have hclk : hasKey (close_output_file
              { st with log := st.log ++ [Msg.warnAlreadySeen k n] }).records_by_field k =
              true := by
            rw [cl1]
            exact hsk
          obtain ⟨i1, i2, i3, i4, i5, i6⟩ := init_old_key c _ k hclk
          obtain ⟨w1, w2, w3, w4, w5⟩ := finishRow_weak _ k r
          refine ⟨?_, ?_⟩
          · intro hcon
            rw [w1, i1, cl1] at hcon
            exact absurd hcon (dict_incr_ne_nil _ _ hne)
          · intro _
            rw [w4, i5]
      · have hskf : hasKey st.records_by_field k = false := by simpa using hsk
        have hstep : step c n st r = .ok
            (finishRow (init_output_file c (close_output_file st) k) k r) := by
          simp only [step, hkr, if_neg hl, hskf]
          simp
        rw [hstep]
        simp only [anyState]
        obtain ⟨cl1, cl2, cl3, cl4, cl5⟩ := close_preserve st
        have hclk : hasKey (close_output_file st).records_by_field k = false := by
          rw [cl1]
          exact hskf
        obtain ⟨i1, i2, i3, i4, i5, i6⟩ := init_new_key c (close_output_file st) k hclk
        obtain ⟨w1, w2, w3, w4, w5⟩ := finishRow_weak _ k r
        refine ⟨?_, ?_⟩
        · intro hcon
          rw [w1, i1, cl1] at hcon
          exact absurd hcon (dict_incr_ne_nil _ _ (by simp))
        · intro _
          rw [w4, i5]

theorem runLoop_QOpen (c : Config) :
    ∀ (p : List Row) (n : Nat) (st : St), QOpen st →
      QOpen (anyState (runLoop c n st p)) := by
  intro p
  induction p with
  | nil =>
    intro n st hQ
    exact hQ
  | cons r t ih =>
    intro n st hQ
    have hstepQ := step_QOpen c st n r hQ
    show QOpen (anyState (match step c n st r with
      | .ok st' => runLoop c (n + 1) st' t
      | .error e => .error e))
    cases hs : step c n st r with
    | ok st1 =>
      rw [hs] at hstepQ
      exact ih (n + 1) st1 hstepQ
    | error e =>
      rw [hs] at hstepQ
      exact hstepQ

/-- C6 (amended): when a fatal error occurs after at least one row has
been processed (so an output destination is open), the error propagates
with the output handle still OPEN — `close_output_file` is not invoked on
the exception path, only the input file's `with` block unwinds.  The open
destination is therefore *not* flushed/closed before the failure is
reported; it is released only by interpreter cleanup at process exit. -/
theorem C6_theorem (c : Config) (hdr : Option Row) (p : List Row)
    (hne : (errState (runLoop c 1 (initSt hdr) p)).map
      (fun st => st.records_by_field.isEmpty) = some false) :
    (errState (runLoop c 1 (initSt hdr) p)).map St.out_open = some true := by
  have hQ0 : QOpen (initSt hdr) := ⟨fun _ => rfl, fun hcon => absurd rfl hcon⟩
  have hQ := runLoop_QOpen c p 1 (initSt hdr) hQ0
  cases hrun : runLoop c 1 (initSt hdr) p with
  | ok st1 =>
    rw [hrun] at hne
    cases hne
  | error e =>
    rw [hrun] at hne hQ
    obtain ⟨e1, st1⟩ := e
    simp only [errState, Option.map_some'] at hne ⊢
    have hrecne : st1.records_by_field ≠ [] := by
      intro hcon
      rw [Option.some_inj] at hne
      rw [hcon] at hne
      cases hne
    have hopen : st1.out_open = true := hQ.2 hrecne
    rw [hopen]

/-- C6 as stated is false: on the out-of-order `KeyError` for the third
row of `[A, B, A]`, the state at the moment of the raise still has the
output handle open (`out_open = true`); it is not closed before the
failure is reported. -/
theorem C6_counterexample :
    (errState (runLoop ⟨1, "o", ".t", false, false⟩ 1 (initSt none)
        [["A"], ["B"], ["A"]])).map St.out_open = some true ∧
    some true ≠ some false := by
  exact ⟨by rfl, by decide⟩

/-- Witness for C6 on a different failing input (recurrence at row 4). -/
theorem C6_witness :
    (errState (runLoop ⟨1, "o", ".t", false, false⟩ 1 (initSt none)
        [["A"], ["B"], ["C"], ["A"]])).map St.out_open = some true :=
  C6_theorem ⟨1, "o", ".t", false, false⟩ none [["A"], ["B"], ["C"], ["A"]] (by rfl)

/-! ### Last-run structure lemmas for force mode -/

theorem reverse_snoc (ks : List String) (k : String) :
    (ks ++ [k]).reverse = k :: ks.reverse := by
  simp

theorem reverse_snoc_rows (rs : List Row) (r : Row) :
    (rs ++ [r]).reverse = r :: rs.reverse := by
  simp

theorem dropRunRev_of_not_mem (k : String) (l : List String) (h : k ∉ l) :
    dropRunRev k l = l := by
  cases l with
  | nil => rfl
  | cons a t =>
    have hak : ¬a = k := by
      intro hcon
      exact h (by simp [hcon])
    rw [dropRunRev, if_neg hak]

theorem mem_of_mem_dropRunRev (k : String) : ∀ l : List String,
    k ∈ dropRunRev k l → k ∈ l := by
  intro l
  induction l with
  | nil => intro h; exact h
  | cons a t ih =>
    intro h
    by_cases hak : a = k
    · rw [dropRunRev, if_pos hak] at h
      exact List.mem_cons_of_mem a (ih h)
    · rw [dropRunRev, if_neg hak] at h
      exact h

theorem mem_of_mem_afterLastRunRev (k : String) : ∀ l : List String,
    k ∈ afterLastRunRev k l → k ∈ l := by
  intro l
  induction l with
  | nil => intro h; exact h
  | cons a t ih =>
    intro h
    by_cases hak : a = k
    · rw [afterLastRunRev, if_pos hak] at h
      exact List.mem_cons_of_mem a (mem_of_mem_dropRunRev k t h)
    · rw [afterLastRunRev, if_neg hak] at h
      exact List.mem_cons_of_mem a (ih h)

theorem multiRun_mem (k : String) (ks : List String) (h : multiRun k ks = true) :
    k ∈ ks := by
  rw [multiRun, decide_eq_true_iff] at h
  have := mem_of_mem_afterLastRunRev k ks.reverse h
  exact (List.mem_reverse).1 this

theorem multiRun_nil (k : String) : multiRun k [] = false := rfl

theorem multiRun_snoc_ne (k k' : String) (ks : List String) (h : k' ≠ k) :
    multiRun k (ks ++ [k']) = multiRun k ks := by
  rw [multiRun, multiRun, reverse_snoc, afterLastRunRev, if_neg h]

theorem multiRun_snoc_cont (k : String) (ks : List String)
    (h : ks.getLast? = some k) : multiRun k (ks ++ [k]) = multiRun k ks := by
  have hrev : ks.reverse.head? = some k := by
    rw [List.head?_reverse, h]
  cases hrevc : ks.reverse with
  | nil => rw [hrevc] at hrev; cases hrev
  | cons a t =>
    rw [hrevc] at hrev
    simp only [List.head?_cons, Option.some_inj] at hrev
    rw [multiRun, multiRun, reverse_snoc, hrevc, afterLastRunRev, if_pos rfl,
      afterLastRunRev, if_pos hrev, dropRunRev, if_pos hrev]

theorem multiRun_snoc_new (k : String) (ks : List String) (h : k ∉ ks) :
    multiRun k (ks ++ [k]) = false := by
  rw [multiRun, reverse_snoc, afterLastRunRev, if_pos rfl,
    dropRunRev_of_not_mem k ks.reverse (by simpa using h)]
  simp [h]

theorem multiRun_snoc_resume (k : String) (ks : List String)
    (hmem : k ∈ ks) (hlast : ks.getLast? ≠ some k) :
    multiRun k (ks ++ [k]) = true := by
  cases hrevc : ks.reverse with
  | nil =>
    have : ks = [] := by simpa using congrArg List.reverse hrevc
    rw [this] at hmem
    cases hmem
  | cons a t =>
    have hak : ¬a = k := by
      intro hcon
      apply hlast
      rw [← List.head?_reverse, hrevc, hcon]
      rfl
    rw [multiRun, reverse_snoc, afterLastRunRev, if_pos rfl, hrevc, dropRunRev,
      if_neg hak, decide_eq_true_iff, ← hrevc]
    simpa using hmem

theorem lastRunRev_head (k : String) (l : List String) (B : List Row)
    (h : l.head? = some k) : lastRunRev k l B = takeRunRev k l B := by
  cases l with
  | nil => cases h
  | cons a t =>
    simp only [List.head?_cons, Option.some_inj] at h
    cases B with
    | nil => rfl
    | cons r rs => rw [lastRunRev, takeRunRev, if_pos h, if_pos h]

theorem lastRun_snoc_ne (k k' : String) (r : Row) (ks : List String) (rs : List Row)
    (h : k' ≠ k) : lastRun k (ks ++ [k']) (rs ++ [r]) = lastRun k ks rs := by
  rw [lastRun, lastRun, reverse_snoc, reverse_snoc_rows, lastRunRev, if_neg h]

theorem lastRun_snoc_cont (k : String) (r : Row) (ks : List String) (rs : List Row)
    (h : ks.getLast? = some k) :
    lastRun k (ks ++ [k]) (rs ++ [r]) = lastRun k ks rs ++ [r] := by
  have hrev : ks.reverse.head? = some k := by
    rw [List.head?_reverse, h]
  rw [lastRun, lastRun, reverse_snoc, reverse_snoc_rows, lastRunRev, if_pos rfl,
    List.reverse_cons, lastRunRev_head k ks.reverse rs.reverse hrev]

theorem lastRun_snoc_newrun (k : String) (r : Row) (ks : List String) (rs : List Row)
    (h : ks.getLast? ≠ some k) :
    lastRun k (ks ++ [k]) (rs ++ [r]) = [r] := by
  rw [lastRun, reverse_snoc, reverse_snoc_rows, lastRunRev, if_pos rfl]
  have htake : takeRunRev k ks.reverse rs.reverse = [] := by
    cases hrevc : ks.reverse with
    | nil => cases rs.reverse <;> rfl
    | cons a t =>
      have hak : ¬a = k := by
        intro hcon
        apply h
        rw [← List.head?_reverse, hrevc, hcon]
        rfl
      cases rs.reverse with
      | nil => rfl
      | cons r2 rs2 => rw [takeRunRev, if_neg hak]
  rw [htake]
  rfl

/-! ### Claim C4: relaxed (force) mode -/

theorem finishRow_log (st : St) (k : String) (cols : Row) :
    (finishRow st k cols).log = st.log := by
  unfold finishRow writeRow
  cases st.out_file <;> simp

theorem close_any (st : St) (f : Msg → Bool) (h : st.log.any f = true) :
    (close_output_file st).log.any f = true := by
  by_cases h1 : pyTruthyStr st.last_field = true <;>
    by_cases h2 : st.out_file.isSome = true <;>
      simp [close_output_file, h1, h2, List.any_append, h]

theorem init_any (c : Config) (st : St) (k : String) (f : Msg → Bool)
    (h : st.log.any f = true) : (init_output_file c st k).log.any f = true := by
  by_cases h1 : hasKey st.records_by_field k = true <;>
    by_cases h2 : (c.use_headers && pyTruthyRow st.headers) = true <;>
      simp [init_output_file, h1, h2, List.any_append, h]

/-- Force-mode invariant: after processing rows `rs` with arbitrary key
sequence `ks` (filenames injective on the keys), each key's file holds the
rows of its *last* contiguous run, headed by the header row only if the key
has a single run; every multi-run key has had a warning logged. -/
def ForceInv (c : Config) (hdr : Option Row) (ks : List String) (rs : List Row)
    (st : St) : Prop :=
  st.headers = hdr ∧
  ks.length = rs.length ∧
  (∀ k, hasKey st.records_by_field k = true ↔ k ∈ ks) ∧
  st.last_field = ks.getLast? ∧
  st.out_file = ks.getLast?.map (fname c) ∧
  st.out_open = !ks.isEmpty ∧
  (∀ k ∈ ks, fsGet st.fs (fname c k) =
    (if multiRun k ks then [] else hdrRows c hdr) ++ lastRun k ks rs) ∧
  (∀ k, multiRun k ks = true → st.log.any (isWarnFor k) = true)

theorem ForceInv_init (c : Config) (hdr : Option Row) :
    ForceInv c hdr [] [] (initSt hdr) := by
  refine ⟨rfl, rfl, ?_, rfl, rfl, rfl, ?_, ?_⟩
  · intro k
    simp [initSt, hasKey_nil]
  · intro k hk
    exact absurd hk (List.not_mem_nil k)
  · intro k hk
    rw [multiRun_nil] at hk
    cases hk

theorem step_force (c : Config) (hdr : Option Row) (ks : List String) (rs : List Row)
    (st : St) (n : Nat) (r : Row) (k : String)
    (hforce : c.force = true)
    (hk : keyOf c r = some k)
    (hinj : injFnames c (ks ++ [k]))
    (hF : ForceInv c hdr ks rs st) :
    ∃ st', step c n st r = .ok st' ∧ ForceInv c hdr (ks ++ [k]) (rs ++ [r]) st' := by
  obtain ⟨hh, hlen, hmem, hlast, hout, hopen, hfs, hwarn⟩ := hF
  have hkin : k ∈ ks ++ [k] := List.mem_append_right ks (List.mem_singleton_self k)
  by_cases hl : some k = st.last_field
  · -- continuation of the current run
    have hgl : ks.getLast? = some k := by rw [← hlast, ← hl]
    have hksne : ks ≠ [] := by
      intro hcon
      rw [hcon] at hgl
      cases hgl
    have hkmem : k ∈ ks := List.mem_of_mem_getLast? hgl
    have hout' : st.out_file = some (fname c k) := by rw [hout, hgl]; rfl
    have hstep : step c n st r = .ok (finishRow st k r) := by
      simp only [step, hk, if_pos hl]
    obtain ⟨f1, f2, f3, f4, f5, f6⟩ := finishRow_fields st k r (fname c k) hout'
    refine ⟨finishRow st k r, hstep, ?_, ?_, ?_, ?_, ?_, ?_, ?_, ?_⟩
    · rw [f2, hh]
    · simp [hlen]
    · intro k'
      rw [f1, hasKey_dict_incr, hmem k']
      constructor
      · intro h1
        exact List.mem_append_left _ h1
      · intro h1
        rcases List.mem_append.1 h1 with h1 | h1
        · exact h1
        · rw [List.mem_singleton.1 h1]
          exact hkmem
    · rw [f3, List.getLast?_concat]
    · rw [f4, List.getLast?_concat]
      rfl
    · rw [f5, hopen]
      cases ks with
      | nil => exact absurd rfl hksne
      | cons a t => simp
    · intro x hx
      by_cases hxk : x = k
      · subst hxk
        rw [f6, fsGet_fsAppend_self, hfs x hkmem, multiRun_snoc_cont x ks hgl,
          lastRun_snoc_cont x r ks rs hgl, List.append_assoc]
      · have hxks : x ∈ ks := by
          rcases List.mem_append.1 hx with h1 | h1
          · exact h1
          · exact absurd (List.mem_singleton.1 h1) hxk
        have hfne : fname c x ≠ fname c k := by
          intro hcon
          exact hxk (hinj x hx k hkin hcon)
        rw [f6, fsGet_fsAppend_ne _ _ _ _ hfne, hfs x hxks,
          multiRun_snoc_ne x k ks (fun hc => hxk hc.symm),
          lastRun_snoc_ne x k r ks rs (fun hc => hxk hc.symm)]
    · intro x hx
      rw [show (finishRow st k r).log = st.log from finishRow_log st k r]
      by_cases hxk : x = k
      · subst hxk
        rw [multiRun_snoc_cont x ks hgl] at hx
        exact hwarn x hx
      · rw [multiRun_snoc_ne x k ks (fun hc => hxk hc.symm)] at hx
        exact hwarn x hx
  · by_cases hsk : hasKey st.records_by_field k = true
    · -- force-mode resumption of a previously closed key
      have hkmem : k ∈ ks := (hmem k).1 hsk
      have hgl : ks.getLast? ≠ some k := by
        intro hcon
        rw [hlast] at hl
        exact hl hcon.symm
      have hstep : step c n st r = .ok
          (finishRow (init_output_file c
            (close_output_file { st with log := st.log ++ [Msg.warnAlreadySeen k n] }) k)
            k r) := by
        simp only [step, hk, if_neg hl, hsk, hforce]
        simp
      obtain ⟨cl1, cl2, cl3, cl4, cl5⟩ :=
        close_preserve { st with log := st.log ++ [Msg.warnAlreadySeen k n] }
      have hclk : hasKey (close_output_file
          { st with log := st.log ++ [Msg.warnAlreadySeen k n] }).records_by_field k =
          true := by
        rw [cl1]
        exact hsk
      obtain ⟨i1, i2, i3, i4, i5, i6⟩ := init_old_key c _ k hclk
      obtain ⟨f1, f2, f3, f4, f5, f6⟩ := finishRow_fields _ k r (fname c k) i4
      refine ⟨_, hstep, ?_, ?_, ?_, ?_, ?_, ?_, ?_, ?_⟩
      · rw [f2, i2, cl3]
        exact hh
      · simp [hlen]
      · intro k'
        rw [f1, i1, cl1, hasKey_dict_incr]
        rw [show ({ st with log := st.log ++ [Msg.warnAlreadySeen k n] } :
          St).records_by_field = st.records_by_field from rfl, hmem k']
        constructor
        · intro h1
          exact List.mem_append_left _ h1
        · intro h1
          rcases List.mem_append.1 h1 with h1 | h1
          · exact h1
          · rw [List.mem_singleton.1 h1]
            exact hkmem
      · rw [f3, List.getLast?_concat]
      · rw [f4, List.getLast?_concat]
        rfl
      · rw [f5, i5]
        cases ks <;> rfl
      · intro x hx
        by_cases hxk : x = k
        · subst hxk
          rw [f6, fsGet_fsAppend_self, i6, cl2, fsOpenTrunc, fsGet_fsSet_self,
            multiRun_snoc_resume x ks hkmem hgl, lastRun_snoc_newrun x r ks rs hgl]
          rfl
        · have hxks : x ∈ ks := by
            rcases List.mem_append.1 hx with h1 | h1
            · exact h1
            · exact absurd (List.mem_singleton.1 h1) hxk
          have hfne : fname c x ≠ fname c k := by
            intro hcon
            exact hxk (hinj x hx k hkin hcon)
          rw [f6, fsGet_fsAppend_ne _ _ _ _ hfne, i6, cl2, fsOpenTrunc,
            fsGet_fsSet_ne _ _ _ _ hfne,
            show ({ st with log := st.log ++ [Msg.warnAlreadySeen k n] } : St).fs =
              st.fs from rfl,
            hfs x hxks, multiRun_snoc_ne x k ks (fun hc => hxk hc.symm),
            lastRun_snoc_ne x k r ks rs (fun hc => hxk hc.symm)]
      · intro x hx
        rw [finishRow_log]
        by_cases hxk : x = k
        · subst hxk
          apply init_any
          apply close_any
          rw [show ({ st with log := st.log ++ [Msg.warnAlreadySeen x n] } : St).log =
            st.log ++ [Msg.warnAlreadySeen x n] from rfl]
          simp [List.any_append, isWarnFor]
        · rw [multiRun_snoc_ne x k ks (fun hc => hxk hc.symm)] at hx
          apply init_any
          apply close_any
          rw [show ({ st with log := st.log ++ [Msg.warnAlreadySeen k n] } : St).log =
            st.log ++ [Msg.warnAlreadySeen k n] from rfl]
          simp [List.any_append, hwarn x hx]
    · -- a brand-new key
      have hskf : hasKey st.records_by_field k = false := by simpa using hsk
      have hknot : k ∉ ks := fun hcon => hsk ((hmem k).2 hcon)
      have hgl : ks.getLast? ≠ some k := by
        intro hcon
        exact hknot (List.mem_of_mem_getLast? hcon)
      have hstep : step c n st r = .ok
          (finishRow (init_output_file c (close_output_file st) k) k r) := by
        simp only [step, hk, if_neg hl, hskf]
        simp
      obtain ⟨cl1, cl2, cl3, cl4, cl5⟩ := close_preserve st
      have hclk : hasKey (close_output_file st).records_by_field k = false := by
        rw [cl1]
        exact hskf
      obtain ⟨i1, i2, i3, i4, i5, i6⟩ := init_new_key c (close_output_file st) k hclk
      obtain ⟨f1, f2, f3, f4, f5, f6⟩ := finishRow_fields _ k r (fname c k) i4
      have hheq : (init_output_file c (close_output_file st) k).headers = hdr := by
        rw [i2, cl3, hh]
      refine ⟨_, hstep, ?_, ?_, ?_, ?_, ?_, ?_, ?_, ?_⟩
      · rw [f2, hheq]
      · simp [hlen]
      · intro k'
        rw [f1, i1, cl1, hasKey_dict_incr, hasKey_append_single]
        by_cases hk' : k' = k
        · subst hk'
          simp
        · have hd0 : decide (k' = k) = false := by simp [hk']
          rw [hd0, Bool.or_false, hmem k']
          constructor
          · intro h1
            exact List.mem_append_left _ h1
          · intro h1
            rcases List.mem_append.1 h1 with h1 | h1
            · exact h1
            · exact absurd (List.mem_singleton.1 h1) hk'
      · rw [f3, List.getLast?_concat]
      · rw [f4, List.getLast?_concat]
        rfl
      · rw [f5, i5]
        cases ks <;> rfl
      · intro x hx
        by_cases hxk : x = k
        · subst hxk
          rw [f6, i6, cl2, cl3, hh, multiRun_snoc_new x ks hknot,
            lastRun_snoc_newrun x r ks rs hgl]
          by_cases hcond : (c.use_headers && pyTruthyRow hdr) = true
          · rw [if_pos hcond, fsGet_fsAppend_self, fsGet_fsAppend_self, fsOpenTrunc,
              fsGet_fsSet_self, hdrRows, if_pos hcond]
            simp
          · rw [if_neg hcond, fsGet_fsAppend_self, fsOpenTrunc, fsGet_fsSet_self,
              hdrRows, if_neg hcond]
            simp
        · have hxks : x ∈ ks := by
            rcases List.mem_append.1 hx with h1 | h1
            · exact h1
            · exact absurd (List.mem_singleton.1 h1) hxk
          have hfne : fname c x ≠ fname c k := by
            intro hcon
            exact hxk (hinj x hx k hkin hcon)
          rw [f6, fsGet_fsAppend_ne _ _ _ _ hfne, i6, cl2, cl3, hh]
          have hrest : fsGet (fsOpenTrunc st.fs (fname c k)) (fname c x) =
              fsGet st.fs (fname c x) := by
            rw [fsOpenTrunc, fsGet_fsSet_ne _ _ _ _ hfne]
          by_cases hcond : (c.use_headers && pyTruthyRow hdr) = true
          · rw [if_pos hcond, fsGet_fsAppend_ne _ _ _ _ hfne, hrest, hfs x hxks,
              multiRun_snoc_ne x k ks (fun hc => hxk hc.symm),
              lastRun_snoc_ne x k r ks rs (fun hc => hxk hc.symm)]
          · rw [if_neg hcond, hrest, hfs x hxks,
              multiRun_snoc_ne x k ks (fun hc => hxk hc.symm),
              lastRun_snoc_ne x k r ks rs (fun hc => hxk hc.symm)]
      · intro x hx
        rw [finishRow_log]
        by_cases hxk : x = k
        · subst hxk
          rw [multiRun_snoc_new x ks hknot] at hx
          cases hx
        · rw [multiRun_snoc_ne x k ks (fun hc => hxk hc.symm)] at hx
          apply init_any
          apply close_any
          exact hwarn x hx

theorem injFnames_mono (c : Config) (l l' : List String)
    (hsub : ∀ x ∈ l', x ∈ l) (h : injFnames c l) : injFnames c l' :=
  fun a ha b hb => h a (hsub a ha) b (hsub b hb)

theorem runLoop_force (c : Config) (hdr : Option Row) (hforce : c.force = true) :
    ∀ (rest : List Row) (ks2 ks1 : List String) (rs1 : List Row) (st : St) (n : Nat),
      extractKeys c rest = some ks2 →
      injFnames c (ks1 ++ ks2) →
      ForceInv c hdr ks1 rs1 st →
      ∃ st', runLoop c n st rest = .ok st' ∧
        ForceInv c hdr (ks1 ++ ks2) (rs1 ++ rest) st' := by
  intro rest
  induction rest with
  | nil =>
    intro ks2 ks1 rs1 st n hex _ hF
    simp only [extractKeys] at hex
    cases hex
    exact ⟨st, rfl, by simpa using hF⟩
  | cons r t ih =>
    intro ks2 ks1 rs1 st n hex hinj hF
    simp only [extractKeys] at hex
    cases hkr : keyOf c r with
    | none => rw [hkr] at hex; cases hex
    | some k =>
      rw [hkr] at hex
      cases hkt : extractKeys c t with
      | none => rw [hkt] at hex; cases hex
      | some kt =>
        rw [hkt] at hex
        cases hex
        have hinj1 : injFnames c (ks1 ++ [k]) := by
          apply injFnames_mono c (ks1 ++ k :: kt) (ks1 ++ [k]) _ hinj
          intro x hx
          rcases List.mem_append.1 hx with h1 | h1
          · exact List.mem_append_left _ h1
          · rw [List.mem_singleton.1 h1]
            exact List.mem_append_right _ (List.mem_cons_self k kt)
        obtain ⟨st1, hstep, hF1⟩ := step_force c hdr ks1 rs1 st n r k hforce hkr hinj1 hF
        have hinj2 : injFnames c ((ks1 ++ [k]) ++ kt) := by
          apply injFnames_mono c (ks1 ++ k :: kt) _ _ hinj
          intro x hx
          simpa [List.append_assoc] using hx
        obtain ⟨st', hloop, hF'⟩ :=
          ih kt (ks1 ++ [k]) (rs1 ++ [r]) st1 (n + 1) hkt hinj2 hF1
        refine ⟨st', ?_, ?_⟩
        · simp only [runLoop, hstep]
          exact hloop
        · simpa [List.append_assoc] using hF'

/-- C4 (amended): in relaxed (force) mode, an input whose keys extract and
whose distinct keys have distinct destination filenames completes the run;
for a key `k` that recurs out of order (`multiRun`), a warning was logged,
its file was reopened with truncating `"w"` so that at the end it holds
exactly the rows of `k`'s final contiguous run with no header line (the key
is already in the count dictionary so `init_output_file` writes none), and
`k`'s record count keeps accumulating in its existing bucket (it ends at
the total number of `k` rows across all runs). -/
theorem C4_theorem (c : Config) (hdr : Option Row) (p : List Row) (ks : List String)
    (k : String)
    (hforce : c.force = true)
    (hkeys : extractKeys c p = some ks)
    (hinj : injFnames c ks)
    (hrec : multiRun k ks = true) :
    (resultState (runFrom c (initSt hdr) p)).isSome = true ∧
    (resultState (runFrom c (initSt hdr) p)).map (fun st => fsGet st.fs (fname c k)) =
      some (lastRun k ks p) ∧
    (resultState (runFrom c (initSt hdr) p)).map
      (fun st => lookupCount st.records_by_field k) = some (ks.count k) ∧
    (resultState (runFrom c (initSt hdr) p)).map
      (fun st => st.log.any (isWarnFor k)) = some true := by
  obtain ⟨st1, hloop, hF⟩ :=
    runLoop_force c hdr hforce p ks [] [] (initSt hdr) 1 hkeys (by simpa using hinj)
      (ForceInv_init c hdr)
  simp only [List.nil_append] at hF
  obtain ⟨hh, hlen, hmem, hlast, hout, hopen, hfs, hwarn⟩ := hF
  have hkmem : k ∈ ks := multiRun_mem k ks hrec
  have hCInv := runLoop_counts c p ks [] (initSt hdr) st1 1 hkeys (CInv_init hdr) hloop
  simp only [List.nil_append] at hCInv
  obtain ⟨hcnt, _, _, _, _⟩ := hCInv
  obtain ⟨cp1, cp2, cp3, cp4, cp5⟩ := close_preserve st1
  have hrun : runFrom c (initSt hdr) p = .ok
      { close_output_file st1 with log := (close_output_file st1).log ++
          [.summary (sumCounts (close_output_file st1).records_by_field)
            (close_output_file st1).records_by_field.length, .finished] } := by
    unfold runFrom
    rw [hloop]
  rw [hrun]
  refine ⟨rfl, ?_, ?_, ?_⟩
  · simp only [resultState, Option.map_some']
    rw [Option.some_inj]
    show fsGet (close_output_file st1).fs (fname c k) = _
    rw [cp2, hfs k hkmem, hrec]
    simp
  · simp only [resultState, Option.map_some']
    rw [Option.some_inj]
    show lookupCount (close_output_file st1).records_by_field k = _
    rw [cp1, hcnt k]
  · simp only [resultState, Option.map_some']
    rw [Option.some_inj]
    show ((close_output_file st1).log ++
      [Msg.summary (sumCounts (close_output_file st1).records_by_field)
        (close_output_file st1).records_by_field.length, Msg.finished]).any
        (isWarnFor k) = true
    rw [List.any_append, close_any st1 (isWarnFor k) (hwarn k hrec)]
    rfl

/-- C4 as literally stated ("at the end it contains only the rows from the
post-violation contiguous run") is false under a filename collision: in
force mode with keys `A, B, A, A!`, the resumed key `A`'s file holds
`[["A"]]` right after its post-violation run, but the later key `"A!"`
sanitizes to the same filename and truncates it again, so at the end the
file holds `[["A!"]]`, not `A`'s post-violation run `[["A"]]`. -/
theorem C4_counterexample :
    multiRun "A" ["A", "B", "A", "A!"] = true ∧
    lastRun "A" ["A", "B", "A", "A!"] [["A"], ["B"], ["A"], ["A!"]] = [["A"]] ∧
    (resultState (runSplitter ⟨1, "out-", ".tsv", false, true⟩
        [["A"], ["B"], ["A"], ["A!"]])).map
      (fun st => fsGet st.fs (fname ⟨1, "out-", ".tsv", false, true⟩ "A")) =
      some [["A!"]] ∧
    some ([["A!"]] : List Row) ≠ some [["A"]] := by
  exact ⟨by decide, by decide, by rfl, by decide⟩

/-- Witness for C4: force mode on `[A, B, A]` (no collisions) completes;
`A`'s file ends with only the post-violation run, `A`'s count is 2, and a
warning was logged. -/
theorem C4_witness :
    (resultState (runFrom ⟨1, "o", ".t", false, true⟩ (initSt none)
        [["A"], ["B"], ["A"]])).isSome = true ∧
    (resultState (runFrom ⟨1, "o", ".t", false, true⟩ (initSt none)
        [["A"], ["B"], ["A"]])).map
      (fun st => fsGet st.fs (fname ⟨1, "o", ".t", false, true⟩ "A")) =
      some [["A"]] ∧
    (resultState (runFrom ⟨1, "o", ".t", false, true⟩ (initSt none)
        [["A"], ["B"], ["A"]])).map
      (fun st => lookupCount st.records_by_field "A") = some 2 ∧
    (resultState (runFrom ⟨1, "o", ".t", false, true⟩ (initSt none)
        [["A"], ["B"], ["A"]])).map
      (fun st => st.log.any (isWarnFor "A")) = some true :=
  C4_theorem ⟨1, "o", ".t", false, true⟩ none [["A"], ["B"], ["A"]] ["A", "B", "A"] "A"
    rfl (by rfl) (by decide) (by decide)

end SplitCsv
